import Mathlib

/-!
Verification of the gofindmyfonts discovery-and-conversion pipeline
(internal/app/preview.go): font scanning and grouping, job planning,
the conversion executor with its on-disk idempotent-skip cache, and the
concurrent worker pool with its atomic completed-count and lossy
progress events.
-/

namespace GoFindMyFonts

/-! ## String and path helpers (Go strings / path/filepath, as used by preview.go) -/

/-- Lowercasing of a string, character by character (strings.ToLower as used
on ASCII extensions). -/
def strToLower (s : String) : String := String.mk (s.toList.map Char.toLower)

/-- Helper for pathExt: walk the reversed character list of the path,
accumulating the characters already passed; stop at the first dot
(the last dot of the path) or at a path separator. -/
def pathExtCore : List Char → List Char → String
  | _, [] => ""
  | seen, c :: rest =>
    if c = '/' then ""
    else if c = '.' then String.mk ('.' :: seen)
    else pathExtCore (c :: seen) rest

/-- filepath.Ext: the suffix beginning at the final dot in the final
path element; empty if there is no dot. -/
def pathExt (p : String) : String := pathExtCore [] p.toList.reverse

/-- filepath.Base: the last element of the path (for the slash-separated
file paths this program handles). -/
def pathBase (p : String) : String :=
  String.mk ((p.toList.reverse.takeWhile (fun c => c ≠ '/')).reverse)

/-- filepath.Dir: everything before the last separator; "." when the path
has no separator. -/
def pathDir (p : String) : String :=
  let kept := ((p.toList.reverse.dropWhile (fun c => c ≠ '/')).drop 1).reverse
  if kept.isEmpty ∧ ¬ p.toList.contains '/' then "." else String.mk kept

/-- filepath.Join for two components. -/
def pathJoin (a b : String) : String := a ++ "/" ++ b

/-- strings.HasSuffix. -/
def strEndsWith (s suf : String) : Bool := List.isSuffixOf suf.toList s.toList

/-- strings.TrimSuffix: drop the suffix when present, otherwise return the
string unchanged. -/
def trimSuffix (s suf : String) : String :=
  if strEndsWith s suf then String.mk (s.toList.take (s.toList.length - suf.toList.length))
  else s

/-! ## Association-list maps (Go map semantics: assignment overwrites) -/

/-- Lookup in an association list keyed by strings (Go map read). -/
def amGet {β : Type} : List (String × β) → String → Option β
  | [], _ => none
  | (k, v) :: rest, key => if k = key then some v else amGet rest key

/-- Assignment in an association list (Go map write: overwrites an existing
key, otherwise inserts). -/
def amSet {β : Type} : List (String × β) → String → β → List (String × β)
  | [], key, val => [(key, val)]
  | (k, v) :: rest, key, val =>
    if k = key then (key, val) :: rest else (k, v) :: amSet rest key val

/-- Update the value stored at an existing key; no effect when the key is
absent (models mutation through a pointer already held into the map). -/
def amUpdate {β : Type} : List (String × β) → String → (β → β) → List (String × β)
  | [], _, _ => []
  | (k, v) :: rest, key, f =>
    if k = key then (k, f v) :: rest else (k, v) :: amUpdate rest key f

/-- Remove a key from an association list (os.Remove on the file map). -/
def amErase {β : Type} : List (String × β) → String → List (String × β)
  | [], _ => []
  | (k, v) :: rest, key => if k = key then rest else (k, v) :: amErase rest key

/-! ## Data model (preview.go) -/

/-- FontProcessError: structured error carrying operation, path and an
underlying cause rendered as a message. -/
structure FontProcessError where
  Op : String
  Path : String
  Err : String
deriving Repr, DecidableEq

/-- Modelled from the spec: the retrieval-reference codec (net/url query
escaping from the Go standard library, outside this repository) is treated
as an opaque location reference carrying the filesystem path plus an
optional display-filename hint; decoding a reference recovers the path
(QueryUnescape inverts QueryEscape). -/
structure Ref where
  path : String
  filename : Option String
deriving Repr, DecidableEq

/-- decodeFilePath: strip the download prefix and unescape, recovering the
filesystem path of a reference produced by this program. -/
def decodeFilePath (r : Ref) : Option String := some r.path

/-- FontVariant: one logical font grouped by filename stem. Location maps
a lowercased extension to its retrieval reference; PreviewPath none models
the empty string. -/
structure FontVariant where
  Name : String
  Location : List (String × Ref)
  PreviewPath : Option Ref
deriving Repr, DecidableEq

/-- FontPreview: one result entry of a run. -/
structure FontPreview where
  Name : String
  Preview : Option Ref
  Formats : List (String × Ref)
deriving Repr, DecidableEq

/-- ConversionJob: the Go job holds a pointer to its FontVariant; the
variant is identified here by its key in the fonts map. -/
structure ConversionJob where
  variantName : String
  sourceFile : String
  sourceFormat : String
  outputPath : String
deriving Repr, DecidableEq

/-- ConversionProgress: one progress event per completed job. -/
structure ConversionProgress where
  Total : Nat
  Current : Nat
  CurrentFont : String
  Stage : String
deriving Repr, DecidableEq

/-! ## Font scanner (findFonts, preview.go lines 290-368) -/

/-- The four accepted extensions. -/
def allowedExts : List String := [".ttf", ".otf", ".woff", ".woff2"]

/-- The mutation one accepted file applies to its variant (preview.go
lines 327-334): record the reference for its extension, overwriting any
earlier one, then set the preview reference when the extension is .woff2,
or when it is .woff or .ttf or .otf and no preview reference exists yet. -/
def scanVariantUpdate (ext : String) (downloadURL : Ref) (v : FontVariant) :
    FontVariant :=
  let v' := { v with Location := amSet v.Location ext downloadURL }
  if ext = ".woff2" ∨ (ext = ".woff" ∧ v'.PreviewPath = none) ∨
      ((ext = ".ttf" ∨ ext = ".otf") ∧ v'.PreviewPath = none) then
    { v' with PreviewPath := some downloadURL }
  else v'

/-- The body of the walk callback for a regular file (preview.go lines
314-339): classify by lowercased extension, group by stem (creating the
variant when first seen), then apply the per-variant mutation. -/
def scanFile (fonts : List (String × FontVariant)) (path : String) :
    List (String × FontVariant) :=
  let ext := strToLower (pathExt path)
  if ext ∈ allowedExts then
    let baseName := trimSuffix (pathBase path) ext
    let fonts' :=
      match amGet fonts baseName with
      | some _ => fonts
      | none => amSet fonts baseName ⟨baseName, [], none⟩
    amUpdate fonts' baseName (scanVariantUpdate ext ⟨path, none⟩)
  else fonts

/-- Scanner state threaded through the walk: the fonts map and the first
recorded walk error. -/
structure ScanState where
  fonts : List (String × FontVariant)
  walkErr : Option FontProcessError
deriving Repr, DecidableEq

/-- The walk callback for an entry whose visit reports an error (preview.go
lines 298-312): a permission error leaves the state unchanged (the callback
answers SkipDir); any other error is recorded only when no earlier error
was recorded. -/
def scanErrStep (st : ScanState) (path : String) (isPerm : Bool) (msg : String) :
    ScanState :=
  if isPerm then st
  else
    match st.walkErr with
    | some _ => st
    | none => { st with walkErr := some ⟨"access", path, msg⟩ }

/-- A directory tree handed to the walk. A directory node optionally
carries a read error, tagged with whether it is a permission error, plus
its message. -/
inductive FTree where
  | file (path : String)
  | dir (path : String) (readErr : Option (Bool × String)) (children : List FTree)
deriving Repr

mutual
/-- Modelled from the spec: the standard-library directory walker
(filepath.Walk, outside this repository) visits entries depth-first and,
when the callback answers the skip signal for an erroring directory, skips
that subtree and continues with the rest of the walk; a directory whose
contents cannot be read has no visitable children either way, so in both
error branches only the recorded state differs. The callbacks themselves
are the ones of findFonts. -/
def walkTree (st : ScanState) : FTree → ScanState
  | .file p => { st with fonts := scanFile st.fonts p }
  | .dir p (some e) _ => scanErrStep st p e.1 e.2
  | .dir _ none cs => walkTrees st cs

/-- Walk a list of sibling entries in order. -/
def walkTrees (st : ScanState) : List FTree → ScanState
  | [] => st
  | t :: ts => walkTrees (walkTree st t) ts
end

/-- findFonts (preview.go lines 290-368): walk the tree from the given
root, then fail with the first recorded walk error if any, then fail when
no fonts were found, otherwise return the fonts map. -/
def findFonts (rootPath : String) (root : FTree) :
    Except FontProcessError (List (String × FontVariant)) :=
  let st := walkTree ⟨[], none⟩ root
  match st.walkErr with
  | some e => .error e
  | none =>
    if st.fonts.length = 0 then
      .error ⟨"scan", rootPath, "no font files found in directory"⟩
    else .ok st.fonts

/-! ## Job planner (ProcessFonts, preview.go lines 495-537) -/

/-- The output path of a planned web-compressed conversion. -/
def woff2OutPath (staticDir name : String) : String :=
  pathJoin (pathJoin staticDir "converted") (name ++ ".woff2")

/-- The output path of a planned desktop conversion. -/
def ttfOutPath (staticDir name : String) : String :=
  pathJoin (pathJoin staticDir "converted") (name ++ ".ttf")

/-- The jobs planned for one variant: the pair of its contribution to the
web-compressed (woff2) batch and to the desktop (ttf) batch. A compress
job is planned when no .woff2 format is present, sourced from .ttf first,
otherwise .otf; a decompress job is planned when .woff2 is present but no
.ttf. Decoding the stored reference recovers the source path. -/
def planVariant (staticDir : String) (variant : FontVariant) :
    List ConversionJob × List ConversionJob :=
  let woff2Out := woff2OutPath staticDir variant.Name
  let ttfOut := ttfOutPath staticDir variant.Name
  let woff2Jobs :=
    match amGet variant.Location ".woff2" with
    | some _ => []
    | none =>
      match amGet variant.Location ".ttf" with
      | some ttfRef =>
        match decodeFilePath ttfRef with
        | some decodedPath => [⟨variant.Name, decodedPath, ".ttf", woff2Out⟩]
        | none => []
      | none =>
        match amGet variant.Location ".otf" with
        | some otfRef =>
          match decodeFilePath otfRef with
          | some decodedPath => [⟨variant.Name, decodedPath, ".otf", woff2Out⟩]
          | none => []
        | none => []
  let ttfJobs :=
    match amGet variant.Location ".woff2" with
    | some woff2Ref =>
      match amGet variant.Location ".ttf" with
      | some _ => []
      | none =>
        match decodeFilePath woff2Ref with
        | some decodedPath => [⟨variant.Name, decodedPath, ".woff2", ttfOut⟩]
        | none => []
    | none => []
  (woff2Jobs, ttfJobs)

/-- The two job batches planned over the whole variant mapping, in map
iteration order. -/
def planJobs (staticDir : String) (variants : List (String × FontVariant)) :
    List ConversionJob × List ConversionJob :=
  variants.foldl
    (fun acc kv =>
      let jobs := planVariant staticDir kv.2
      (acc.1 ++ jobs.1, acc.2 ++ jobs.2))
    ([], [])

/-! ## Worker pool (processConversions, preview.go lines 370-454)

The pool is modelled as a nondeterministic small-step transition system
over the batch state: one step is one worker finishing one job taken from
the shared queue, applying the per-job variant mutation, incrementing the
shared completed-count, and either delivering or dropping its progress
event (the non-blocking send). An uncancelled run is modelled: the
cancellation token is never set, so the ctx.Done branches never fire. -/

/-- The conversion-type label chosen for a job (preview.go lines 410-413). -/
def conversionType (job : ConversionJob) : String :=
  if strEndsWith job.outputPath ".ttf" then "TTF" else "WOFF2"

/-- The progress event emitted for one completed job. -/
def progressEvent (total current : Nat) (job : ConversionJob) : ConversionProgress :=
  ⟨total, current, job.variantName, "Converting to " ++ conversionType job⟩

/-- The mutation a successful conversion applies to the job's variant
(preview.go lines 419-428): record the new format reference and, when the
new format is .woff2 and no preview reference exists yet, set the preview
reference to it. -/
def applyConversion (job : ConversionJob) (convertedPath : String)
    (v : FontVariant) : FontVariant :=
  let ext := pathExt job.outputPath
  let downloadURL : Ref := ⟨convertedPath, some (v.Name ++ ext)⟩
  let v' := { v with Location := amSet v.Location ext downloadURL }
  if ext = ".woff2" ∧ v'.PreviewPath = none then
    { v' with PreviewPath := some downloadURL }
  else v'

/-- Process one job against its variant: on converter success apply the
mutation, on converter error leave the variant untouched (preview.go lines
417-432). -/
def processJobVariant (conv : ConversionJob → Except FontProcessError String)
    (job : ConversionJob) (v : FontVariant) : FontVariant :=
  match conv job with
  | .ok convertedPath => applyConversion job convertedPath v
  | .error _ => v

/-- Apply one job to the fonts map (the job mutates its variant through
the pointer it holds; here the variant is reached through its key). -/
def applyJob (conv : ConversionJob → Except FontProcessError String)
    (fonts : List (String × FontVariant)) (job : ConversionJob) :
    List (String × FontVariant) :=
  amUpdate fonts job.variantName (processJobVariant conv job)

/-- State of one batch run: the shared fonts map, the jobs still in the
queue, the shared atomic completed-count, and the progress events that
were actually delivered to the channel. -/
structure BatchState where
  fonts : List (String × FontVariant)
  pending : List ConversionJob
  completed : Nat
  delivered : List ConversionProgress
deriving Repr, DecidableEq

/-- Initial state of a batch. -/
def initBatch (fonts : List (String × FontVariant)) (jobs : List ConversionJob) :
    BatchState :=
  ⟨fonts, jobs, 0, []⟩

/-- One step of an uncancelled batch run: some worker finishes some pending
job. The variant mutation is applied on success only, the completed-count
is incremented in every case, and the progress event is either delivered
or dropped (the non-blocking send with the drop-if-full default branch). -/
inductive BatchStep (conv : ConversionJob → Except FontProcessError String)
    (total : Nat) : BatchState → BatchState → Prop
  | finish (st : BatchState) (job : ConversionJob) (drop : Bool)
      (hmem : job ∈ st.pending) :
      BatchStep conv total st
        { fonts := applyJob conv st.fonts job
          pending := st.pending.erase job
          completed := st.completed + 1
          delivered :=
            if drop then st.delivered
            else st.delivered ++ [progressEvent total (st.completed + 1) job] }

/-- A (possibly partial) batch run: the reflexive-transitive closure of
single steps. -/
def BatchRun (conv : ConversionJob → Except FontProcessError String)
    (total : Nat) : BatchState → BatchState → Prop :=
  Relation.ReflTransGen (BatchStep conv total)

/-- The result list assembled after both batches (preview.go lines
596-604). -/
def assembleResults (fonts : List (String × FontVariant)) : List FontPreview :=
  fonts.map fun kv => ⟨kv.2.Name, kv.2.PreviewPath, kv.2.Location⟩

/-! ## Conversion executor (convertToWoff2 / convertToTTF, preview.go
lines 174-288)

File-system effects are modelled on a map from path to file size;
directories are not tracked (MkdirAll is assumed to succeed). The external
tool is an oracle: for one invocation it yields the exit status and,
optionally, the size of the file it wrote at the expected output path.
Each converter returns its result, the file system after the call, and the
number of external-tool invocations it made. -/

/-- The on-disk state: a map from file path to file size. -/
abbrev FS := List (String × Nat)

/-- os.Stat restricted to the size: some size when the file exists. -/
def fsStat (fs : FS) (p : String) : Option Nat := amGet fs p

/-- Creating or overwriting a file of a given size. -/
def fsWrite (fs : FS) (p : String) (n : Nat) : FS := amSet fs p n

/-- os.Remove. -/
def fsErase (fs : FS) (p : String) : FS := amErase fs p

/-- One external tool: given the command name, the staged input file and
the expected output path, yields the exit status and the size the tool
wrote at the output path (none when it wrote nothing there). -/
structure ToolOracle where
  run : String → String → String → Bool × Option Nat

/-- convertToWoff2 (preview.go lines 174-223): skip immediately when the
output already exists non-empty; otherwise stage the source next to the
output, invoke woff2_compress, verify the output exists non-empty, and
remove the staged copy on every exit path after staging. -/
def convertToWoff2 (tool : ToolOracle) (fs : FS) (ttfPath outputPath : String) :
    (Except FontProcessError String) × FS × Nat :=
  if 0 < (fsStat fs outputPath).getD 0 then (.ok outputPath, fs, 0)
  else
    let tmpFile := trimSuffix outputPath ".woff2" ++ pathExt ttfPath
    match fsStat fs ttfPath with
    | none => (.error ⟨"copy", ttfPath, "failed to open source file"⟩, fs, 0)
    | some srcSize =>
      let fs1 := fsWrite fs tmpFile srcSize
      let outcome := tool.run "woff2_compress" tmpFile outputPath
      let fs2 :=
        match outcome.2 with
        | some m => fsWrite fs1 outputPath m
        | none => fs1
      if outcome.1 = false then
        (.error ⟨"woff2_compress", tmpFile, "compression failed"⟩,
          fsErase fs2 tmpFile, 1)
      else
        match fsStat fs2 outputPath with
        | some m =>
          if 0 < m then (.ok outputPath, fsErase fs2 tmpFile, 1)
          else
            (.error ⟨"verify", outputPath, "file not created or empty after compression"⟩,
              fsErase fs2 tmpFile, 1)
        | none =>
          (.error ⟨"verify", outputPath, "file not created or empty after compression"⟩,
            fsErase fs2 tmpFile, 1)

/-- convertToTTF (preview.go lines 225-288): skip immediately when the
output already exists non-empty; otherwise check the source exists, stage
it into the output directory, invoke woff2_decompress, verify the output,
and remove the staged copy on every exit path after staging. -/
def convertToTTF (tool : ToolOracle) (fs : FS) (woff2Path outputPath : String) :
    (Except FontProcessError Unit) × FS × Nat :=
  if 0 < (fsStat fs outputPath).getD 0 then (.ok (), fs, 0)
  else
    match fsStat fs woff2Path with
    | none =>
      (.error ⟨"check_source", woff2Path, "file not found or not accessible"⟩, fs, 0)
    | some srcSize =>
      let tmpFile := pathJoin (pathDir outputPath) (pathBase woff2Path)
      let fs1 := fsWrite fs tmpFile srcSize
      let outcome := tool.run "woff2_decompress" tmpFile outputPath
      let fs2 :=
        match outcome.2 with
        | some m => fsWrite fs1 outputPath m
        | none => fs1
      if outcome.1 = false then
        (.error ⟨"woff2_decompress", tmpFile, "decompression failed"⟩,
          fsErase fs2 tmpFile, 1)
      else
        match fsStat fs2 outputPath with
        | some m =>
          if 0 < m then (.ok (), fsErase fs2 tmpFile, 1)
          else
            (.error ⟨"verify", outputPath, "file not created or empty after decompression"⟩,
              fsErase fs2 tmpFile, 1)
        | none =>
          (.error ⟨"verify", outputPath, "file not created or empty after decompression"⟩,
            fsErase fs2 tmpFile, 1)

/-- The wrapper ProcessFonts passes to the desktop batch (preview.go lines
580-586): adapt convertToTTF to the (path, error) converter shape. -/
def convertToTTFWrapped (tool : ToolOracle) (fs : FS) (src dst : String) :
    (Except FontProcessError String) × FS × Nat :=
  match convertToTTF tool fs src dst with
  | (.ok _, fs', k) => (.ok dst, fs', k)
  | (.error e, fs', k) => (.error e, fs', k)

/-- Run the file-system side of a batch of jobs in sequence, accumulating
the number of external-tool invocations. -/
def runBatchFS
    (convFS : FS → String → String → (Except FontProcessError String) × FS × Nat)
    (fs : FS) (jobs : List ConversionJob) : FS × Nat :=
  jobs.foldl
    (fun acc job =>
      let out := convFS acc.1 job.sourceFile job.outputPath
      (out.2.1, acc.2 + out.2.2))
    (fs, 0)

/-! ## Association-map lemmas -/

theorem amGet_amSet_self {β : Type} (m : List (String × β)) (k : String) (v : β) :
    amGet (amSet m k v) k = some v := by
  induction m with
  | nil => simp [amSet, amGet]
  | cons kv rest ih =>
    by_cases h : kv.1 = k
    · simp [amSet, amGet, h]
    · simp [amSet, amGet, h, ih]

theorem amGet_amSet_ne {β : Type} (m : List (String × β)) (k k' : String) (v : β)
    (h : k' ≠ k) : amGet (amSet m k v) k' = amGet m k' := by
  induction m with
  | nil => simp [amSet, amGet, Ne.symm h]
  | cons kv rest ih =>
    by_cases hk : kv.1 = k
    · simp [amSet, amGet, hk, Ne.symm h]
    · simp only [amSet, if_neg hk, amGet, ih]

theorem amGet_amUpdate_self {β : Type} (m : List (String × β)) (k : String)
    (f : β → β) : amGet (amUpdate m k f) k = (amGet m k).map f := by
  induction m with
  | nil => simp [amUpdate, amGet]
  | cons kv rest ih =>
    by_cases h : kv.1 = k
    · simp [amUpdate, amGet, h]
    · simp [amUpdate, amGet, h, ih]

theorem amGet_amUpdate_ne {β : Type} (m : List (String × β)) (k k' : String)
    (f : β → β) (h : k' ≠ k) : amGet (amUpdate m k f) k' = amGet m k' := by
  induction m with
  | nil => simp [amUpdate, amGet]
  | cons kv rest ih =>
    by_cases hk : kv.1 = k
    · simp [amUpdate, amGet, hk, Ne.symm h]
    · simp only [amUpdate, if_neg hk, amGet, ih]

theorem amUpdate_keys {β : Type} (m : List (String × β)) (k : String) (f : β → β) :
    (amUpdate m k f).map Prod.fst = m.map Prod.fst := by
  induction m with
  | nil => simp [amUpdate]
  | cons kv rest ih =>
    by_cases h : kv.1 = k
    · simp [amUpdate, h]
    · simp [amUpdate, h, ih]

theorem amSet_keys_of_none {β : Type} (m : List (String × β)) (k : String) (v : β)
    (h : amGet m k = none) : (amSet m k v).map Prod.fst = m.map Prod.fst ++ [k] := by
  induction m with
  | nil => simp [amSet]
  | cons kv rest ih =>
    by_cases hk : kv.1 = k
    · simp [amGet, hk] at h
    · simp [amGet, hk] at h
      simp [amSet, hk, ih h]

theorem amGet_eq_none_of_not_mem {β : Type} (m : List (String × β)) (k : String)
    (h : k ∉ m.map Prod.fst) : amGet m k = none := by
  induction m with
  | nil => rfl
  | cons kv rest ih =>
    simp only [List.map_cons, List.mem_cons] at h
    push_neg at h
    simp [amGet, Ne.symm h.1, ih h.2]

theorem not_mem_of_amGet_eq_none {β : Type} (m : List (String × β)) (k : String)
    (h : amGet m k = none) : k ∉ m.map Prod.fst := by
  induction m with
  | nil => simp
  | cons kv rest ih =>
    by_cases hk : kv.1 = k
    · simp [amGet, hk] at h
    · simp [amGet, hk] at h
      simp [Ne.symm hk, ih h]

theorem mem_of_amGet_eq_some {β : Type} (m : List (String × β)) (k : String) (v : β)
    (h : amGet m k = some v) : (k, v) ∈ m := by
  induction m with
  | nil => simp [amGet] at h
  | cons kv rest ih =>
    by_cases hk : kv.1 = k
    · simp only [amGet, if_pos hk] at h
      obtain ⟨k1, v1⟩ := kv
      simp only at hk
      subst hk
      simp only [Option.some.injEq] at h
      subst h
      exact List.mem_cons_self _ _
    · simp only [amGet, if_neg hk] at h
      exact List.mem_cons_of_mem _ (ih h)

/-! ## Scanner: walk bridge lemmas -/

mutual
/-- The regular files actually visited by the walk, in visit order (files
under an unreadable directory are not visited). -/
def treeFiles : FTree → List String
  | .file p => [p]
  | .dir _ (some _) _ => []
  | .dir _ none cs => treeFilesList cs

/-- Visited files of a sibling list, in order. -/
def treeFilesList : List FTree → List String
  | [] => []
  | t :: ts => treeFiles t ++ treeFilesList ts
end

mutual
/-- The first non-permission error the walk reports, in visit order. -/
def firstWalkErr : FTree → Option FontProcessError
  | .file _ => none
  | .dir p (some e) _ => if e.1 then none else some ⟨"access", p, e.2⟩
  | .dir _ none cs => firstWalkErrList cs

/-- First non-permission error over a sibling list. -/
def firstWalkErrList : List FTree → Option FontProcessError
  | [] => none
  | t :: ts =>
    match firstWalkErr t with
    | some e => some e
    | none => firstWalkErrList ts
end

mutual
/-- The walk decomposes: the fonts map is the fold of the file callback
over the visited files, and the recorded error is the previously recorded
one, if any, otherwise the first non-permission error of the subtree. -/
theorem walkTree_eq (st : ScanState) (t : FTree) :
    walkTree st t =
      ⟨(treeFiles t).foldl scanFile st.fonts,
        match st.walkErr with
        | some e => some e
        | none => firstWalkErr t⟩ := by
  obtain ⟨fonts, werr⟩ := st
  cases t with
  | file p =>
    cases werr <;> simp [walkTree, treeFiles, firstWalkErr]
  | dir p e cs =>
    cases e with
    | some e =>
      obtain ⟨isPerm, msg⟩ := e
      cases isPerm <;> cases werr <;>
        simp [walkTree, treeFiles, firstWalkErr, scanErrStep]
    | none =>
      rw [walkTree]
      rw [walkTrees_eq ⟨fonts, werr⟩ cs]
      cases werr <;> simp [treeFiles, firstWalkErr]

/-- Sibling-list version of walkTree_eq. -/
theorem walkTrees_eq (st : ScanState) (ts : List FTree) :
    walkTrees st ts =
      ⟨(treeFilesList ts).foldl scanFile st.fonts,
        match st.walkErr with
        | some e => some e
        | none => firstWalkErrList ts⟩ := by
  obtain ⟨fonts, werr⟩ := st
  cases ts with
  | nil =>
    cases werr <;> simp [walkTrees, treeFilesList, firstWalkErrList]
  | cons t ts =>
    rw [walkTrees]
    rw [walkTrees_eq (walkTree ⟨fonts, werr⟩ t) ts]
    rw [walkTree_eq ⟨fonts, werr⟩ t]
    cases werr with
    | some e => simp [treeFilesList, List.foldl_append, firstWalkErrList]
    | none =>
      cases hf : firstWalkErr t <;>
        simp [treeFilesList, List.foldl_append, firstWalkErrList, hf]

end

/-! ## Scanner: pointwise description and invariants -/

/-- The lowercased extension the scanner computes for a path. -/
def extOf (p : String) : String := strToLower (pathExt p)

/-- The stem the scanner computes for a path. -/
def stemOf (p : String) : String := trimSuffix (pathBase p) (extOf p)

/-- Scan a plain list of file paths in order (the files the walk visits). -/
def scanAll (ps : List String) : List (String × FontVariant) :=
  ps.foldl scanFile []

/-- The reference recorded at discovery time for a path. -/
def mkRef (p : String) : Ref := ⟨p, none⟩

/-- The reference the fonts map holds for a stem and extension. -/
def locOf (fonts : List (String × FontVariant)) (stem ext : String) : Option Ref :=
  (amGet fonts stem).bind fun v => amGet v.Location ext

/-- The preview reference the fonts map holds for a stem. -/
def prevOf (fonts : List (String × FontVariant)) (stem : String) : Option Ref :=
  (amGet fonts stem).bind fun v => v.PreviewPath

/-- Does a path land in the given stem and extension slot? -/
def matchKey (stem ext : String) (p : String) : Bool :=
  extOf p == ext && stemOf p == stem

/-- Does a path belong to the stem with one of the non-woff2 accepted
extensions (the ones that set the preview only when it is still empty)? -/
def previewMatch (stem : String) (p : String) : Bool :=
  (extOf p == ".woff" || extOf p == ".ttf" || extOf p == ".otf") && stemOf p == stem

theorem scanVariantUpdate_Name (ext : String) (u : Ref) (v : FontVariant) :
    (scanVariantUpdate ext u v).Name = v.Name := by
  simp only [scanVariantUpdate]
  split <;> rfl

theorem scanVariantUpdate_Location (ext : String) (u : Ref) (v : FontVariant) :
    (scanVariantUpdate ext u v).Location = amSet v.Location ext u := by
  simp only [scanVariantUpdate]
  split <;> rfl

theorem scanVariantUpdate_preview (ext : String) (u : Ref) (v : FontVariant) :
    (scanVariantUpdate ext u v).PreviewPath =
      if ext = ".woff2" ∨
          ((ext = ".woff" ∨ ext = ".ttf" ∨ ext = ".otf") ∧ v.PreviewPath = none) then
        some u
      else v.PreviewPath := by
  unfold scanVariantUpdate
  by_cases h2 : ext = ".woff2"
  · simp [h2]
  · by_cases hp : v.PreviewPath = none
    · by_cases hw : ext = ".woff" ∨ ext = ".ttf" ∨ ext = ".otf"
      · rcases hw with hw | hw | hw <;> simp [hw, hp, h2]
      · push_neg at hw
        simp [h2, hp, hw.1, hw.2.1, hw.2.2]
    · simp [h2, hp]

/-- Unfolding equation for scanFile in terms of extOf and stemOf. -/
theorem scanFile_eq (fonts : List (String × FontVariant)) (p : String) :
    scanFile fonts p =
      if extOf p ∈ allowedExts then
        amUpdate
          (match amGet fonts (stemOf p) with
            | some _ => fonts
            | none => amSet fonts (stemOf p) ⟨stemOf p, [], none⟩)
          (stemOf p) (scanVariantUpdate (extOf p) ⟨p, none⟩)
      else fonts := rfl

theorem amGet_scanFile (fonts : List (String × FontVariant)) (p stem : String) :
    amGet (scanFile fonts p) stem =
      if extOf p ∈ allowedExts ∧ stemOf p = stem then
        some (scanVariantUpdate (extOf p) ⟨p, none⟩
          ((amGet fonts stem).getD ⟨stem, [], none⟩))
      else amGet fonts stem := by
  rw [scanFile_eq]
  by_cases hA : extOf p ∈ allowedExts
  · rw [if_pos hA]
    by_cases hs : stemOf p = stem
    · rw [if_pos ⟨hA, hs⟩, hs]
      cases hg : amGet fonts stem with
      | some v =>
        simp only [hg]
        rw [amGet_amUpdate_self]
        simp [hg]
      | none =>
        simp only [hg]
        rw [amGet_amUpdate_self, amGet_amSet_self]
        simp
    · rw [if_neg (by intro hc; exact hs hc.2)]
      rw [amGet_amUpdate_ne _ _ _ _ (fun hh => hs hh.symm)]
      cases hg : amGet fonts (stemOf p) with
      | some v => simp [hg]
      | none =>
        simp only [hg]
        rw [amGet_amSet_ne _ _ _ _ (fun hh => hs hh.symm)]
  · rw [if_neg hA, if_neg (by intro hc; exact hA hc.1)]

/-- Scanner invariant: every entry is keyed by its variant name, every
variant has a preview reference, and the keys are distinct. -/
def ScanInv (fonts : List (String × FontVariant)) : Prop :=
  (∀ k v, amGet fonts k = some v → v.Name = k ∧ v.PreviewPath ≠ none) ∧
  (fonts.map Prod.fst).Nodup

/-- Under distinct keys, membership and lookup agree. -/
theorem amGet_of_mem_nodup {β : Type} (m : List (String × β)) (k : String) (v : β)
    (hnd : (m.map Prod.fst).Nodup) (h : (k, v) ∈ m) : amGet m k = some v := by
  induction m with
  | nil => simp at h
  | cons kv rest ih =>
    simp only [List.map_cons, List.nodup_cons] at hnd
    rcases List.mem_cons.mp h with h | h
    · rw [← h]
      simp [amGet]
    · have hk : kv.1 ≠ k := by
        intro he
        exact hnd.1 (he ▸ (List.mem_map.mpr ⟨(k, v), h, rfl⟩))
      simp [amGet, hk, ih hnd.2 h]

theorem mem_amSet {β : Type} (m : List (String × β)) (k : String) (v : β)
    (kv : String × β) (h : kv ∈ amSet m k v) : kv ∈ m ∨ kv = (k, v) := by
  induction m with
  | nil => simp [amSet] at h; simp [h]
  | cons kv' rest ih =>
    by_cases hk : kv'.1 = k
    · rw [amSet, if_pos hk] at h
      rcases List.mem_cons.mp h with h | h
      · right; exact h
      · left; exact List.mem_cons_of_mem _ h
    · rw [amSet, if_neg hk] at h
      rcases List.mem_cons.mp h with h | h
      · left; exact h ▸ List.mem_cons_self _ _
      · rcases ih h with h | h
        · left; exact List.mem_cons_of_mem _ h
        · right; exact h

theorem mem_amUpdate {β : Type} (m : List (String × β)) (k : String) (f : β → β)
    (kv : String × β) (h : kv ∈ amUpdate m k f) :
    kv ∈ m ∨ ∃ v, (k, v) ∈ m ∧ kv = (k, f v) := by
  induction m with
  | nil => simp [amUpdate] at h
  | cons kv' rest ih =>
    by_cases hk : kv'.1 = k
    · rw [amUpdate, if_pos hk] at h
      rcases List.mem_cons.mp h with h | h
      · right
        refine ⟨kv'.2, ?_, ?_⟩
        · rw [← hk]; exact List.mem_cons_self _ _
        · rw [h, hk]
      · left; exact List.mem_cons_of_mem _ h
    · rw [amUpdate, if_neg hk] at h
      rcases List.mem_cons.mp h with h | h
      · left; exact h ▸ List.mem_cons_self _ _
      · rcases ih h with h | ⟨v, hv, he⟩
        · left; exact List.mem_cons_of_mem _ h
        · right; exact ⟨v, List.mem_cons_of_mem _ hv, he⟩

theorem scanVariantUpdate_preview_ne_none (ext : String) (u : Ref) (v : FontVariant)
    (hA : ext ∈ allowedExts) : (scanVariantUpdate ext u v).PreviewPath ≠ none := by
  rw [scanVariantUpdate_preview]
  rcases (show ext = ".ttf" ∨ ext = ".otf" ∨ ext = ".woff" ∨ ext = ".woff2" by
    simpa [allowedExts] using hA) with h | h | h | h <;>
    subst h <;>
    cases hp : v.PreviewPath <;>
    simp [hp]

theorem scanInv_scanFile (fonts : List (String × FontVariant)) (p : String)
    (h : ScanInv fonts) : ScanInv (scanFile fonts p) := by
  obtain ⟨hget, hnd⟩ := h
  constructor
  · intro k v hv
    rw [amGet_scanFile] at hv
    by_cases hc : extOf p ∈ allowedExts ∧ stemOf p = k
    · rw [if_pos hc] at hv
      injection hv with hv
      subst hv
      refine ⟨?_, scanVariantUpdate_preview_ne_none _ _ _ hc.1⟩
      rw [scanVariantUpdate_Name]
      cases hg : amGet fonts k with
      | some w => simp [hg, (hget k w hg).1]
      | none => simp [hg]
    · rw [if_neg hc] at hv
      exact hget k v hv
  · rw [scanFile_eq]
    by_cases hA : extOf p ∈ allowedExts
    · rw [if_pos hA]
      cases hg : amGet fonts (stemOf p) with
      | some v0 =>
        simp only [hg]
        rw [amUpdate_keys]
        exact hnd
      | none =>
        simp only [hg]
        rw [amUpdate_keys, amSet_keys_of_none _ _ _ hg]
        have hnotin := not_mem_of_amGet_eq_none _ _ hg
        simp [List.nodup_append, hnd, hnotin]
    · rw [if_neg hA]
      exact hnd

theorem scanInv_foldl (ps : List String) (fonts : List (String × FontVariant))
    (h : ScanInv fonts) : ScanInv (ps.foldl scanFile fonts) := by
  induction ps generalizing fonts with
  | nil => exact h
  | cons p ps ih => exact ih _ (scanInv_scanFile _ _ h)

/-- Every successful scan satisfies the scanner invariant. -/
theorem findFonts_inv (rootPath : String) (t : FTree)
    (fonts : List (String × FontVariant))
    (h : findFonts rootPath t = .ok fonts) : ScanInv fonts := by
  unfold findFonts at h
  rw [walkTree_eq] at h
  simp only at h
  cases hf : firstWalkErr t with
  | some e => simp [hf] at h
  | none =>
    simp only [hf] at h
    split at h
    · exact absurd h (by simp)
    · simp only [Except.ok.injEq] at h
      subst h
      exact scanInv_foldl _ _ ⟨fun k v hv => by simp [amGet] at hv, by simp⟩

/-! ## Scanner: the recorded reference and the preview policy -/

theorem getLast?_snoc {α : Type} (l : List α) (a : α) :
    (l ++ [a]).getLast? = some a := by
  induction l with
  | nil => rfl
  | cons x xs ih =>
    rw [List.cons_append]
    cases hxs : xs ++ [a] with
    | nil => exact absurd hxs (by simp)
    | cons y ys =>
      rw [List.getLast?_cons_cons, ← hxs, ih]

theorem head?_append_left {α : Type} (l l' : List α) (h : l ≠ []) :
    (l ++ l').head? = l.head? := by
  cases l with
  | nil => exact absurd rfl h
  | cons x xs => rfl

theorem matchKey_iff (stem ext p : String) :
    matchKey stem ext p = true ↔ extOf p = ext ∧ stemOf p = stem := by
  simp [matchKey]

theorem previewMatch_iff (stem p : String) :
    previewMatch stem p = true ↔
      (extOf p = ".woff" ∨ extOf p = ".ttf" ∨ extOf p = ".otf") ∧ stemOf p = stem := by
  simp [previewMatch, or_assoc]

theorem scanAll_append (ps : List String) (p : String) :
    scanAll (ps ++ [p]) = scanFile (scanAll ps) p := by
  unfold scanAll
  rw [List.foldl_append]
  rfl

/-- The reference the scan records for a stem and accepted extension is
the reference of the LAST visited file landing in that slot (later
duplicates for the same stem and extension overwrite earlier ones). -/
theorem scanAll_locOf (ps : List String) (stem ext : String)
    (hext : ext ∈ allowedExts) :
    locOf (scanAll ps) stem ext =
      ((ps.filter (matchKey stem ext)).getLast?).map mkRef := by
  induction ps using List.reverseRecOn with
  | nil => simp [scanAll, locOf, amGet]
  | append_singleton ps p ih =>
    rw [scanAll_append, List.filter_append]
    unfold locOf
    rw [amGet_scanFile]
    by_cases hc : extOf p ∈ allowedExts ∧ stemOf p = stem
    · rw [if_pos hc]
      simp only [Option.some_bind]
      rw [scanVariantUpdate_Location]
      by_cases he : extOf p = ext
      · rw [he, amGet_amSet_self]
        have hm : matchKey stem ext p = true := (matchKey_iff _ _ _).mpr ⟨he, hc.2⟩
        simp [hm, getLast?_snoc, mkRef]
      · rw [amGet_amSet_ne _ _ _ _ (fun hh => he hh.symm)]
        have hm : matchKey stem ext p = false := by
          rw [Bool.eq_false_iff]
          intro hm
          exact he ((matchKey_iff _ _ _).mp hm).1
        have hL : amGet ((amGet (scanAll ps) stem).getD ⟨stem, [], none⟩).Location ext =
            locOf (scanAll ps) stem ext := by
          unfold locOf
          cases hg : amGet (scanAll ps) stem <;> simp [hg, amGet]
        rw [hL, ih]
        simp [hm]
    · rw [if_neg hc]
      have hm : matchKey stem ext p = false := by
        rw [Bool.eq_false_iff]
        intro hm
        obtain ⟨h1, h2⟩ := (matchKey_iff _ _ _).mp hm
        exact hc ⟨h1 ▸ hext, h2⟩
      have hL : (amGet (scanAll ps) stem).bind (fun v => amGet v.Location ext) =
          locOf (scanAll ps) stem ext := rfl
      rw [hL, ih]
      simp [hm]

/-- The preview reference the scan records for a stem: the last visited
.woff2 file if any .woff2 file was visited for the stem, otherwise the
FIRST visited file of the stem among the .woff, .ttf and .otf extensions. -/
theorem scanAll_prevOf (ps : List String) (stem : String) :
    prevOf (scanAll ps) stem =
      match (ps.filter (matchKey stem ".woff2")).getLast? with
      | some q => some (mkRef q)
      | none => ((ps.filter (previewMatch stem)).head?).map mkRef := by
  induction ps using List.reverseRecOn with
  | nil => simp [scanAll, prevOf, amGet]
  | append_singleton ps p ih =>
    rw [scanAll_append]
    unfold prevOf
    rw [amGet_scanFile]
    by_cases hc : extOf p ∈ allowedExts ∧ stemOf p = stem
    · rw [if_pos hc]
      simp only [Option.some_bind]
      rw [scanVariantUpdate_preview]
      have hv0 : ((amGet (scanAll ps) stem).getD ⟨stem, [], none⟩).PreviewPath =
          prevOf (scanAll ps) stem := by
        unfold prevOf
        cases hg : amGet (scanAll ps) stem <;> simp [hg]
      by_cases he2 : extOf p = ".woff2"
      · have hm : matchKey stem ".woff2" p = true := (matchKey_iff _ _ _).mpr ⟨he2, hc.2⟩
        rw [if_pos (Or.inl he2)]
        rw [List.filter_append]
        simp [hm, getLast?_snoc, mkRef]
      · have he : extOf p = ".ttf" ∨ extOf p = ".otf" ∨ extOf p = ".woff" := by
          rcases (show extOf p = ".ttf" ∨ extOf p = ".otf" ∨ extOf p = ".woff" ∨
              extOf p = ".woff2" by simpa [allowedExts] using hc.1) with h | h | h | h
          · exact Or.inl h
          · exact Or.inr (Or.inl h)
          · exact Or.inr (Or.inr h)
          · exact absurd h he2
        have hm : matchKey stem ".woff2" p = false := by
          rw [Bool.eq_false_iff]
          intro hm
          exact he2 ((matchKey_iff _ _ _).mp hm).1
        have hpm : previewMatch stem p = true := by
          rcases he with h | h | h <;> simp [previewMatch, h, hc.2]
        have hfw : List.filter (matchKey stem ".woff2") [p] = [] := by simp [hm]
        have hfp : List.filter (previewMatch stem) [p] = [p] := by simp [hpm]
        rw [List.filter_append, List.filter_append, hfw, hfp, List.append_nil]
        cases hw2 : (ps.filter (matchKey stem ".woff2")).getLast? with
        | some q =>
          have hprev : prevOf (scanAll ps) stem = some (mkRef q) := by
            rw [ih, hw2]
          rw [if_neg ?_]
          · rw [hv0, hprev]
          · rw [hv0, hprev]
            simp [he2]
        | none =>
          cases hpf : (ps.filter (previewMatch stem)).head? with
          | none =>
            have hprev : prevOf (scanAll ps) stem = none := by
              rw [ih, hw2, hpf]
              rfl
            rw [if_pos ?_]
            · have hpfnil : ps.filter (previewMatch stem) = [] :=
                List.head?_eq_none_iff.mp hpf
              rw [hpfnil]
              simp [mkRef]
            · rw [hv0, hprev]
              rcases he with h | h | h <;> simp [h]
          | some r =>
            have hprev : prevOf (scanAll ps) stem = some (mkRef r) := by
              rw [ih, hw2, hpf]
              rfl
            rw [if_neg ?_]
            · rw [hv0, hprev]
              rw [head?_append_left _ _ (by
                intro hnil
                rw [hnil] at hpf
                exact absurd hpf (by simp))]
              rw [hpf]
              rfl
            · rw [hv0, hprev]
              simp [he2]
    · rw [if_neg hc]
      have hm : matchKey stem ".woff2" p = false := by
        rw [Bool.eq_false_iff]
        intro hm
        obtain ⟨h1, h2⟩ := (matchKey_iff _ _ _).mp hm
        refine hc ⟨?_, h2⟩
        rw [h1]
        decide
      have hpm : previewMatch stem p = false := by
        rw [Bool.eq_false_iff]
        intro hpm
        obtain ⟨h1, h2⟩ := (previewMatch_iff _ _).mp hpm
        refine hc ⟨?_, h2⟩
        rcases h1 with h | h | h <;> rw [h] <;> decide
      have hL : (amGet (scanAll ps) stem).bind (fun v => v.PreviewPath) =
          prevOf (scanAll ps) stem := rfl
      rw [hL, ih, List.filter_append, List.filter_append]
      simp [hm, hpm]

/-! ## Worker pool: run lemmas -/

theorem filter_erase_of_not {α : Type} [DecidableEq α] (l : List α) (a : α)
    (f : α → Bool) (h : f a = false) : (l.erase a).filter f = l.filter f := by
  induction l with
  | nil => rfl
  | cons x xs ih =>
    rw [List.erase_cons]
    by_cases hx : x = a
    · subst hx
      simp [List.filter_cons, h]
    · rw [if_neg (by simpa using hx)]
      by_cases hf : f x = true
      · simp [List.filter_cons, hf, ih]
      · simp only [Bool.not_eq_true] at hf
        simp [List.filter_cons, hf, ih]

theorem filter_erase_single {α : Type} [DecidableEq α] (l : List α) (a : α)
    (f : α → Bool) (h : l.filter f = [a]) : (l.erase a).filter f = [] := by
  induction l with
  | nil => rfl
  | cons x xs ih =>
    by_cases hf : f x = true
    · rw [List.filter_cons_of_pos hf] at h
      injection h with h1 h2
      subst h1
      rw [List.erase_cons_head, h2]
    · simp only [Bool.not_eq_true] at hf
      rw [List.filter_cons_of_neg (by simp [hf])] at h
      rw [List.erase_cons]
      by_cases hx : x = a
      · subst hx
        have : x ∈ xs.filter f := by rw [h]; exact List.mem_singleton.mpr rfl
        have := List.of_mem_filter this
        rw [hf] at this
        cases this
      · rw [if_neg (by simpa using hx)]
        rw [List.filter_cons_of_neg (by simp [hf])]
        exact ih h

theorem batchStep_completed {conv : ConversionJob → Except FontProcessError String}
    {total : Nat} {s s' : BatchState} (h : BatchStep conv total s s') :
    s'.completed = s.completed + 1 := by
  cases h
  rfl

theorem batchStep_count {conv : ConversionJob → Except FontProcessError String}
    {total : Nat} {s s' : BatchState} (h : BatchStep conv total s s') :
    s'.completed + s'.pending.length = s.completed + s.pending.length := by
  cases h with
  | finish job drop hmem =>
    have hlen := List.length_erase_of_mem hmem
    have hpos : 0 < s.pending.length := List.length_pos.mpr (List.ne_nil_of_mem hmem)
    simp only [hlen]
    omega

theorem batchRun_count {conv : ConversionJob → Except FontProcessError String}
    {total : Nat} {s s' : BatchState} (h : BatchRun conv total s s') :
    s'.completed + s'.pending.length = s.completed + s.pending.length := by
  induction h with
  | refl => rfl
  | tail hpre hstep ih => rw [batchStep_count hstep, ih]

theorem batchRun_pending_subset {conv : ConversionJob → Except FontProcessError String}
    {total : Nat} {s s' : BatchState} (h : BatchRun conv total s s') :
    s'.pending ⊆ s.pending := by
  induction h with
  | refl => exact fun _ hj => hj
  | tail hpre hstep ih =>
    cases hstep with
    | finish job drop hmem =>
      intro j hj
      exact ih (List.erase_subset _ _ hj)

theorem batchRun_untargeted {conv : ConversionJob → Except FontProcessError String}
    {total : Nat} {s s' : BatchState} (name : String)
    (h : BatchRun conv total s s')
    (hno : ∀ j ∈ s.pending, j.variantName ≠ name) :
    amGet s'.fonts name = amGet s.fonts name := by
  induction h with
  | refl => rfl
  | tail hpre hstep ih =>
    cases hstep with
    | finish job drop hmem =>
      have hjob : job.variantName ≠ name :=
        hno job (batchRun_pending_subset hpre hmem)
      rw [applyJob, amGet_amUpdate_ne _ _ _ _ (fun hh => hjob hh.symm), ih]

theorem batchRun_single_target {conv : ConversionJob → Except FontProcessError String}
    {total : Nat} {s s' : BatchState} (name : String) (jv : ConversionJob)
    (h : BatchRun conv total s s') (hterm : s'.pending = [])
    (hone : s.pending.filter (fun j => j.variantName == name) = [jv]) :
    amGet s'.fonts name = (amGet s.fonts name).map (processJobVariant conv jv) := by
  induction h using Relation.ReflTransGen.head_induction_on with
  | refl =>
    rw [hterm] at hone
    exact absurd hone (by simp)
  | head hstep hrun ih =>
    rename_i a c
    cases hstep with
    | finish job drop hmem =>
      by_cases hjob : job.variantName = name
      · have hjv : job = jv := by
          have : job ∈ a.pending.filter (fun j => j.variantName == name) :=
            List.mem_filter.mpr ⟨hmem, by simp [hjob]⟩
          rw [hone] at this
          exact List.mem_singleton.mp this
        subst hjv
        have hfonts : amGet (applyJob conv a.fonts job) name =
            (amGet a.fonts name).map (processJobVariant conv job) := by
          rw [applyJob, hjob, amGet_amUpdate_self]
        have hrest : (a.pending.erase job).filter
            (fun j => j.variantName == name) = [] :=
          filter_erase_single _ _ _ hone
        have := batchRun_untargeted name hrun (by
          intro j hj
          intro he
          have : j ∈ (a.pending.erase job).filter (fun j => j.variantName == name) :=
            List.mem_filter.mpr ⟨hj, by simp [he]⟩
          rw [hrest] at this
          cases this)
        rw [this]
        exact hfonts
      · have hfonts : amGet (applyJob conv a.fonts job) name = amGet a.fonts name := by
          rw [applyJob, amGet_amUpdate_ne _ _ _ _ (fun hh => hjob hh.symm)]
        have hkeep : (a.pending.erase job).filter
            (fun j => j.variantName == name) = [jv] := by
          rw [filter_erase_of_not _ _ _ (by simp [hjob])]
          exact hone
        rw [ih hkeep, hfonts]

theorem batchRun_exists_terminal (conv : ConversionJob → Except FontProcessError String)
    (total : Nat) (s : BatchState) :
    ∃ st, BatchRun conv total s st ∧ st.pending = [] := by
  generalize hn : s.pending.length = n
  induction n generalizing s with
  | zero =>
    exact ⟨s, Relation.ReflTransGen.refl, List.length_eq_zero.mp hn⟩
  | succ n ih =>
    cases hp : s.pending with
    | nil => rw [hp] at hn; simp at hn
    | cons j rest =>
      have hmem : j ∈ s.pending := by rw [hp]; exact List.mem_cons_self _ _
      have hstep := @BatchStep.finish conv total s j true hmem
      obtain ⟨st, hrun, hdone⟩ := ih
        { fonts := applyJob conv s.fonts j
          pending := s.pending.erase j
          completed := s.completed + 1
          delivered := if true then s.delivered
                       else s.delivered ++ [progressEvent total (s.completed + 1) j] }
        (by
          show (s.pending.erase j).length = n
          rw [hp, List.erase_cons_head]
          rw [hp] at hn
          simpa using hn)
      exact ⟨st, Relation.ReflTransGen.head hstep hrun, hdone⟩

theorem processJobVariant_error (conv : ConversionJob → Except FontProcessError String)
    (job : ConversionJob) (v : FontVariant) (e : FontProcessError)
    (h : conv job = .error e) : processJobVariant conv job v = v := by
  unfold processJobVariant
  rw [h]

theorem applyConversion_preview_preserved (job : ConversionJob) (p : String)
    (v : FontVariant) (h : v.PreviewPath ≠ none) :
    (applyConversion job p v).PreviewPath = v.PreviewPath := by
  simp only [applyConversion]
  split
  · rename_i hcond
    exact absurd hcond.2 h
  · rfl

theorem processJobVariant_preview_preserved
    (conv : ConversionJob → Except FontProcessError String)
    (job : ConversionJob) (v : FontVariant) (h : v.PreviewPath ≠ none) :
    (processJobVariant conv job v).PreviewPath = v.PreviewPath := by
  unfold processJobVariant
  cases conv job with
  | ok p => exact applyConversion_preview_preserved job p v h
  | error e => rfl

theorem assembleResults_mem (fonts : List (String × FontVariant)) (name : String)
    (v : FontVariant) (h : (name, v) ∈ fonts) :
    (⟨v.Name, v.PreviewPath, v.Location⟩ : FontPreview) ∈ assembleResults fonts :=
  List.mem_map.mpr ⟨(name, v), h, rfl⟩

/-! ## Planner lemmas -/

theorem planVariant_fst_eq (sd : String) (v : FontVariant) :
    (planVariant sd v).1 =
      match amGet v.Location ".woff2" with
      | some _ => []
      | none =>
        match amGet v.Location ".ttf" with
        | some r => [⟨v.Name, r.path, ".ttf", woff2OutPath sd v.Name⟩]
        | none =>
          match amGet v.Location ".otf" with
          | some r => [⟨v.Name, r.path, ".otf", woff2OutPath sd v.Name⟩]
          | none => [] := by
  cases h2 : amGet v.Location ".woff2" <;>
    cases ht : amGet v.Location ".ttf" <;>
    cases ho : amGet v.Location ".otf" <;>
    simp [planVariant, decodeFilePath, h2, ht, ho]

theorem planVariant_snd_eq (sd : String) (v : FontVariant) :
    (planVariant sd v).2 =
      match amGet v.Location ".woff2" with
      | some r =>
        match amGet v.Location ".ttf" with
        | some _ => []
        | none => [⟨v.Name, r.path, ".woff2", ttfOutPath sd v.Name⟩]
      | none => [] := by
  cases h2 : amGet v.Location ".woff2" <;>
    cases ht : amGet v.Location ".ttf" <;>
    simp [planVariant, decodeFilePath, h2, ht]

theorem planVariant_fst_name (sd : String) (v : FontVariant) (j : ConversionJob)
    (h : j ∈ (planVariant sd v).1) : j.variantName = v.Name := by
  rw [planVariant_fst_eq] at h
  cases h2 : amGet v.Location ".woff2" <;> rw [h2] at h
  case some => cases h
  case none =>
    cases ht : amGet v.Location ".ttf" <;> rw [ht] at h
    case some =>
      rw [List.mem_singleton] at h
      rw [h]
    case none =>
      cases ho : amGet v.Location ".otf" <;> rw [ho] at h
      case some =>
        rw [List.mem_singleton] at h
        rw [h]
      case none => cases h

theorem planVariant_snd_name (sd : String) (v : FontVariant) (j : ConversionJob)
    (h : j ∈ (planVariant sd v).2) : j.variantName = v.Name := by
  rw [planVariant_snd_eq] at h
  cases h2 : amGet v.Location ".woff2" <;> rw [h2] at h
  case some =>
    cases ht : amGet v.Location ".ttf" <;> rw [ht] at h
    case some => cases h
    case none =>
      rw [List.mem_singleton] at h
      rw [h]
  case none => cases h

theorem planJobs_eq (sd : String) (vs : List (String × FontVariant)) :
    planJobs sd vs =
      ((vs.map fun kv => (planVariant sd kv.2).1).flatten,
       (vs.map fun kv => (planVariant sd kv.2).2).flatten) := by
  have aux : ∀ (vs : List (String × FontVariant)) (a b : List ConversionJob),
      vs.foldl (fun acc kv =>
        let jobs := planVariant sd kv.2
        (acc.1 ++ jobs.1, acc.2 ++ jobs.2)) (a, b) =
      (a ++ (vs.map fun kv => (planVariant sd kv.2).1).flatten,
       b ++ (vs.map fun kv => (planVariant sd kv.2).2).flatten) := by
    intro vs
    induction vs with
    | nil => intro a b; simp
    | cons kv rest ih =>
      intro a b
      simp only [List.foldl_cons, List.map_cons, List.flatten_cons]
      rw [ih]
      simp [List.append_assoc]
  unfold planJobs
  rw [aux]
  simp

theorem mem_planJobs_fst (sd : String) (vs : List (String × FontVariant))
    (j : ConversionJob) (h : j ∈ (planJobs sd vs).1) :
    ∃ kv ∈ vs, j ∈ (planVariant sd kv.2).1 := by
  rw [planJobs_eq] at h
  simp only [List.mem_flatten, List.mem_map] at h
  obtain ⟨l, ⟨kv, hkv, hl⟩, hj⟩ := h
  exact ⟨kv, hkv, hl ▸ hj⟩

theorem mem_planJobs_snd (sd : String) (vs : List (String × FontVariant))
    (j : ConversionJob) (h : j ∈ (planJobs sd vs).2) :
    ∃ kv ∈ vs, j ∈ (planVariant sd kv.2).2 := by
  rw [planJobs_eq] at h
  simp only [List.mem_flatten, List.mem_map] at h
  obtain ⟨l, ⟨kv, hkv, hl⟩, hj⟩ := h
  exact ⟨kv, hkv, hl ▸ hj⟩

/-- In a map with distinct keys, each keyed by its variant name, the
web-compressed batch restricted to one variant name is exactly that
variant's own planned contribution. -/
theorem planJobs_filter_fst (sd : String) (fonts : List (String × FontVariant))
    (name : String) (v : FontVariant)
    (hnames : ∀ kv ∈ fonts, (kv : String × FontVariant).2.Name = kv.1)
    (hnd : (fonts.map Prod.fst).Nodup)
    (hv : amGet fonts name = some v) :
    (planJobs sd fonts).1.filter (fun j => j.variantName == v.Name) =
      (planVariant sd v).1 := by
  induction fonts with
  | nil => simp [amGet] at hv
  | cons kv rest ih =>
    have hnd' : (rest.map Prod.fst).Nodup := by
      simp only [List.map_cons, List.nodup_cons] at hnd
      exact hnd.2
    have hknotin : kv.1 ∉ rest.map Prod.fst := by
      simp only [List.map_cons, List.nodup_cons] at hnd
      exact hnd.1
    rw [planJobs_eq]
    simp only [List.map_cons, List.flatten_cons]
    rw [List.filter_append]
    by_cases hk : kv.1 = name
    · rw [amGet, if_pos hk] at hv
      injection hv with hv
      have hvn : v.Name = name := by
        rw [← hv] at *
        rw [hnames kv (List.mem_cons_self _ _), hk]
      have hhead : (planVariant sd kv.2).1.filter
          (fun j => j.variantName == v.Name) = (planVariant sd kv.2).1 := by
        apply List.filter_eq_self.mpr
        intro j hj
        rw [planVariant_fst_name sd kv.2 j hj, hv]
        simp
      have htail : ((rest.map fun kv => (planVariant sd kv.2).1).flatten).filter
          (fun j => j.variantName == v.Name) = [] := by
        apply List.filter_eq_nil_iff.mpr
        intro j hj
        obtain ⟨kv', hkv', hj'⟩ := mem_planJobs_fst sd rest j (by rw [planJobs_eq]; exact hj)
        rw [planVariant_fst_name sd kv'.2 j hj']
        rw [hnames kv' (List.mem_cons_of_mem _ hkv')]
        have : kv'.1 ≠ name := by
          intro he
          exact hknotin (hk ▸ he ▸ List.mem_map.mpr ⟨kv', hkv', rfl⟩)
        simp [hvn, this]
      rw [hhead, htail, List.append_nil, hv]
    · rw [amGet, if_neg hk] at hv
      have hvmem : (name, v) ∈ rest := mem_of_amGet_eq_some _ _ _ hv
      have hvn : v.Name = name := hnames (name, v) (List.mem_cons_of_mem _ hvmem)
      have hhead : (planVariant sd kv.2).1.filter
          (fun j => j.variantName == v.Name) = [] := by
        apply List.filter_eq_nil_iff.mpr
        intro j hj
        rw [planVariant_fst_name sd kv.2 j hj]
        rw [hnames kv (List.mem_cons_self _ _), hvn]
        simp [hk]
      have htail := ih (fun kv' hkv' => hnames kv' (List.mem_cons_of_mem _ hkv')) hnd' hv
      rw [planJobs_eq] at htail
      simp only at htail
      rw [hhead, List.nil_append, htail]

/-- Decompress-batch counterpart of planJobs_filter_fst. -/
theorem planJobs_filter_snd (sd : String) (fonts : List (String × FontVariant))
    (name : String) (v : FontVariant)
    (hnames : ∀ kv ∈ fonts, (kv : String × FontVariant).2.Name = kv.1)
    (hnd : (fonts.map Prod.fst).Nodup)
    (hv : amGet fonts name = some v) :
    (planJobs sd fonts).2.filter (fun j => j.variantName == v.Name) =
      (planVariant sd v).2 := by
  induction fonts with
  | nil => simp [amGet] at hv
  | cons kv rest ih =>
    have hnd' : (rest.map Prod.fst).Nodup := by
      simp only [List.map_cons, List.nodup_cons] at hnd
      exact hnd.2
    have hknotin : kv.1 ∉ rest.map Prod.fst := by
      simp only [List.map_cons, List.nodup_cons] at hnd
      exact hnd.1
    rw [planJobs_eq]
    simp only [List.map_cons, List.flatten_cons]
    rw [List.filter_append]
    by_cases hk : kv.1 = name
    · rw [amGet, if_pos hk] at hv
      injection hv with hv
      have hvn : v.Name = name := by
        rw [← hv] at *
        rw [hnames kv (List.mem_cons_self _ _), hk]
      have hhead : (planVariant sd kv.2).2.filter
          (fun j => j.variantName == v.Name) = (planVariant sd kv.2).2 := by
        apply List.filter_eq_self.mpr
        intro j hj
        rw [planVariant_snd_name sd kv.2 j hj, hv]
        simp
      have htail : ((rest.map fun kv => (planVariant sd kv.2).2).flatten).filter
          (fun j => j.variantName == v.Name) = [] := by
        apply List.filter_eq_nil_iff.mpr
        intro j hj
        obtain ⟨kv', hkv', hj'⟩ := mem_planJobs_snd sd rest j (by rw [planJobs_eq]; exact hj)
        rw [planVariant_snd_name sd kv'.2 j hj']
        rw [hnames kv' (List.mem_cons_of_mem _ hkv')]
        have : kv'.1 ≠ name := by
          intro he
          exact hknotin (hk ▸ he ▸ List.mem_map.mpr ⟨kv', hkv', rfl⟩)
        simp [hvn, this]
      rw [hhead, htail, List.append_nil, hv]
    · rw [amGet, if_neg hk] at hv
      have hvmem : (name, v) ∈ rest := mem_of_amGet_eq_some _ _ _ hv
      have hvn : v.Name = name := hnames (name, v) (List.mem_cons_of_mem _ hvmem)
      have hhead : (planVariant sd kv.2).2.filter
          (fun j => j.variantName == v.Name) = [] := by
        apply List.filter_eq_nil_iff.mpr
        intro j hj
        rw [planVariant_snd_name sd kv.2 j hj]
        rw [hnames kv (List.mem_cons_self _ _), hvn]
        simp [hk]
      have htail := ih (fun kv' hkv' => hnames kv' (List.mem_cons_of_mem _ hkv')) hnd' hv
      rw [planJobs_eq] at htail
      simp only at htail
      rw [hhead, List.nil_append, htail]

/-! ## Executor lemmas -/

theorem amGet_amErase_ne {β : Type} (m : List (String × β)) (k k' : String)
    (h : k' ≠ k) : amGet (amErase m k) k' = amGet m k' := by
  induction m with
  | nil => rfl
  | cons kv rest ih =>
    by_cases hk : kv.1 = k
    · rw [amErase, if_pos hk, amGet, if_neg (by rw [hk]; exact Ne.symm h)]
    · rw [amErase, if_neg hk]
      by_cases hk' : kv.1 = k'
      · simp [amGet, hk']
      · simp [amGet, hk', ih]

theorem convertToWoff2_skip (tool : ToolOracle) (fs : FS) (src out : String)
    (n : Nat) (h : fsStat fs out = some n) (hn : 0 < n) :
    convertToWoff2 tool fs src out = (.ok out, fs, 0) := by
  unfold convertToWoff2
  rw [h]
  simp [hn]

theorem convertToTTF_skip (tool : ToolOracle) (fs : FS) (src out : String)
    (n : Nat) (h : fsStat fs out = some n) (hn : 0 < n) :
    convertToTTF tool fs src out = (.ok (), fs, 0) := by
  unfold convertToTTF
  rw [h]
  simp [hn]

theorem convertToTTFWrapped_skip (tool : ToolOracle) (fs : FS) (src out : String)
    (n : Nat) (h : fsStat fs out = some n) (hn : 0 < n) :
    convertToTTFWrapped tool fs src out = (.ok out, fs, 0) := by
  unfold convertToTTFWrapped
  rw [convertToTTF_skip tool fs src out n h hn]

/-- Shared verification step: when the post-tool stat-and-verify match
yields a success, the output exists non-empty in the resulting file system
(the staged copy, removed on exit, is a different path). -/
theorem verifyStep_ok {γ : Type} (fs2 : FS) (tmp out : String)
    (e : FontProcessError) (okv p : γ) (fs' : FS) (k : Nat) (hne : tmp ≠ out)
    (h : (match fsStat fs2 out with
          | some m =>
            if 0 < m then ((Except.ok okv : Except FontProcessError γ), fsErase fs2 tmp, 1)
            else (Except.error e, fsErase fs2 tmp, 1)
          | none => (Except.error e, fsErase fs2 tmp, 1)) = (Except.ok p, fs', k)) :
    ∃ m, fsStat fs' out = some m ∧ 0 < m := by
  cases hv : fsStat fs2 out with
  | none =>
    rw [hv] at h
    dsimp only at h
    rw [Prod.mk.injEq] at h
    exact absurd h.1 (by simp)
  | some m =>
    rw [hv] at h
    dsimp only at h
    by_cases hm : 0 < m
    · rw [if_pos hm] at h
      rw [Prod.mk.injEq, Prod.mk.injEq] at h
      obtain ⟨-, h2, -⟩ := h
      refine ⟨m, ?_, hm⟩
      rw [← h2]
      show amGet (amErase fs2 tmp) out = some m
      rw [amGet_amErase_ne _ _ _ (Ne.symm hne)]
      exact hv
    · rw [if_neg hm] at h
      rw [Prod.mk.injEq] at h
      exact absurd h.1 (by simp)

/-- A successful web-compression leaves the output file present and
non-empty (provided the staged copy is not the output path itself, which
holds for every planned job: planned sources never carry the compressed
extension). -/
theorem convertToWoff2_ok_nonempty (tool : ToolOracle) (fs : FS) (src out : String)
    (p : String) (fs' : FS) (k : Nat)
    (hne : trimSuffix out ".woff2" ++ pathExt src ≠ out)
    (h : convertToWoff2 tool fs src out = (.ok p, fs', k)) :
    ∃ m, fsStat fs' out = some m ∧ 0 < m := by
  unfold convertToWoff2 at h
  by_cases hskip : 0 < (fsStat fs out).getD 0
  · rw [if_pos hskip] at h
    rw [Prod.mk.injEq, Prod.mk.injEq] at h
    obtain ⟨-, h2, -⟩ := h
    cases hstat : fsStat fs out with
    | none => rw [hstat] at hskip; simp at hskip
    | some m =>
      rw [hstat] at hskip
      exact ⟨m, by rw [← h2]; exact hstat, by simpa using hskip⟩
  · rw [if_neg hskip] at h
    cases hsrc : fsStat fs src with
    | none =>
      rw [hsrc] at h
      rw [Prod.mk.injEq] at h
      exact absurd h.1 (by simp)
    | some srcSize =>
      rw [hsrc] at h
      dsimp only at h
      cases houtc : tool.run "woff2_compress"
          (trimSuffix out ".woff2" ++ pathExt src) out with
      | mk exitOk written =>
        rw [houtc] at h
        dsimp only at h
        cases exitOk with
        | false =>
          rw [if_pos rfl] at h
          rw [Prod.mk.injEq] at h
          exact absurd h.1 (by simp)
        | true =>
          rw [if_neg (by simp)] at h
          cases written with
          | some m0 =>
            dsimp only at h
            exact verifyStep_ok _ _ out _ _ p fs' k hne h
          | none =>
            dsimp only at h
            exact verifyStep_ok _ _ out _ _ p fs' k hne h

/-- A successful decompression leaves the output file present and
non-empty (provided the staged copy is not the output path itself). -/
theorem convertToTTF_ok_nonempty (tool : ToolOracle) (fs : FS) (src out : String)
    (fs' : FS) (k : Nat)
    (hne : pathJoin (pathDir out) (pathBase src) ≠ out)
    (h : convertToTTF tool fs src out = (.ok (), fs', k)) :
    ∃ m, fsStat fs' out = some m ∧ 0 < m := by
  unfold convertToTTF at h
  by_cases hskip : 0 < (fsStat fs out).getD 0
  · rw [if_pos hskip] at h
    rw [Prod.mk.injEq, Prod.mk.injEq] at h
    obtain ⟨-, h2, -⟩ := h
    cases hstat : fsStat fs out with
    | none => rw [hstat] at hskip; simp at hskip
    | some m =>
      rw [hstat] at hskip
      exact ⟨m, by rw [← h2]; exact hstat, by simpa using hskip⟩
  · rw [if_neg hskip] at h
    cases hsrc : fsStat fs src with
    | none =>
      rw [hsrc] at h
      rw [Prod.mk.injEq] at h
      exact absurd h.1 (by simp)
    | some srcSize =>
      rw [hsrc] at h
      dsimp only at h
      cases houtc : tool.run "woff2_decompress"
          (pathJoin (pathDir out) (pathBase src)) out with
      | mk exitOk written =>
        rw [houtc] at h
        dsimp only at h
        cases exitOk with
        | false =>
          rw [if_pos rfl] at h
          rw [Prod.mk.injEq] at h
          exact absurd h.1 (by simp)
        | true =>
          rw [if_neg (by simp)] at h
          cases written with
          | some m0 =>
            dsimp only at h
            exact verifyStep_ok _ _ out _ _ () fs' k hne h
          | none =>
            dsimp only at h
            exact verifyStep_ok _ _ out _ _ () fs' k hne h

/-- A batch whose every output already exists non-empty performs no
external-tool invocation and leaves the file system unchanged, for any
converter with the idempotent-skip behaviour. -/
theorem runBatchFS_all_skip
    (convFS : FS → String → String → (Except FontProcessError String) × FS × Nat)
    (hskip : ∀ fs src out n, fsStat fs out = some n → 0 < n →
      convFS fs src out = (.ok out, fs, 0))
    (fs : FS) (jobs : List ConversionJob)
    (hjobs : ∀ j ∈ jobs, ∃ m, fsStat fs j.outputPath = some m ∧ 0 < m) :
    runBatchFS convFS fs jobs = (fs, 0) := by
  have aux : ∀ (jobs : List ConversionJob) (c : Nat),
      (∀ j ∈ jobs, ∃ m, fsStat fs j.outputPath = some m ∧ 0 < m) →
      jobs.foldl (fun acc job =>
        let out := convFS acc.1 job.sourceFile job.outputPath
        (out.2.1, acc.2 + out.2.2)) (fs, c) = (fs, c) := by
    intro jobs
    induction jobs with
    | nil => intro c _; rfl
    | cons j rest ih =>
      intro c hj
      obtain ⟨m, hm, hmp⟩ := hj j (List.mem_cons_self _ _)
      simp only [List.foldl_cons]
      rw [hskip fs j.sourceFile j.outputPath m hm hmp]
      exact ih c (fun j' hj' => hj j' (List.mem_cons_of_mem _ hj'))
  exact aux jobs 0 hjobs

/-! ## Output-path extension lemmas -/

theorem pathExt_woff2OutPath (sd nm : String) :
    pathExt (woff2OutPath sd nm) = ".woff2" := by
  unfold pathExt woff2OutPath pathJoin
  rw [show (sd ++ "/" ++ "converted" ++ "/" ++ (nm ++ ".woff2")).toList
      = (sd ++ "/" ++ "converted" ++ "/").toList ++ (nm.toList ++ ".woff2".toList) from rfl]
  rw [← List.append_assoc]
  rw [List.reverse_append]
  rfl

theorem pathExt_ttfOutPath (sd nm : String) :
    pathExt (ttfOutPath sd nm) = ".ttf" := by
  unfold pathExt ttfOutPath pathJoin
  rw [show (sd ++ "/" ++ "converted" ++ "/" ++ (nm ++ ".ttf")).toList
      = (sd ++ "/" ++ "converted" ++ "/").toList ++ (nm.toList ++ ".ttf".toList) from rfl]
  rw [← List.append_assoc]
  rw [List.reverse_append]
  rfl

/-! ## Claim theorems -/

/-- C2 counterexample: two files in the tree share the stem Font and the
extension .ttf; after the scan the recorded .ttf reference is the
SECOND-seen file, not the first-seen one the claim requires. -/
theorem C2_counterexample :
    findFonts "/r" (.dir "/r" none [.file "/r/a/Font.ttf", .file "/r/b/Font.ttf"]) =
      .ok [("Font", ⟨"Font", [(".ttf", mkRef "/r/b/Font.ttf")],
        some (mkRef "/r/a/Font.ttf")⟩)] ∧
    mkRef "/r/b/Font.ttf" ≠ mkRef "/r/a/Font.ttf" :=
  ⟨rfl, by decide⟩

/-- C2 amended: when two files in the tree share the same stem and the same
lowercased extension, the reference recorded in the variant's formats
mapping for that extension is the LAST-visited matching file's reference;
later duplicates for the same stem and extension overwrite earlier ones. -/
theorem C2_amended (t : FTree) (stem ext : String) (hext : ext ∈ allowedExts) :
    locOf (walkTree ⟨[], none⟩ t).fonts stem ext =
      (((treeFiles t).filter (matchKey stem ext)).getLast?).map mkRef := by
  rw [walkTree_eq]
  exact scanAll_locOf (treeFiles t) stem ext hext

/-- C2 amended, witness at the counterexample input. -/
theorem C2_amended_witness :
    locOf (walkTree ⟨[], none⟩
        (.dir "/r" none [.file "/r/a/Font.ttf", .file "/r/b/Font.ttf"])).fonts
        "Font" ".ttf" =
      ((((treeFiles (.dir "/r" none
        [.file "/r/a/Font.ttf", .file "/r/b/Font.ttf"]))).filter
          (matchKey "Font" ".ttf")).getLast?).map mkRef :=
  C2_amended _ "Font" ".ttf" (by decide)

/-- C3 counterexample: a variant with a .woff and a .ttf file but no
.woff2, where the walk meets the .ttf first: the preview reference stays
the .ttf reference, not the first-seen .woff reference the claim
requires. -/
theorem C3_counterexample :
    findFonts "/r" (.dir "/r" none [.file "/r/Font.ttf", .file "/r/Font.woff"]) =
      .ok [("Font", ⟨"Font",
        [(".ttf", mkRef "/r/Font.ttf"), (".woff", mkRef "/r/Font.woff")],
        some (mkRef "/r/Font.ttf")⟩)] ∧
    mkRef "/r/Font.ttf" ≠ mkRef "/r/Font.woff" :=
  ⟨rfl, by decide⟩

/-- C3 amended: at discovery time the preview reference is the LAST-visited
.woff2 file of the stem when any .woff2 file is present; otherwise it is
the FIRST-visited file of the stem among the .woff, .ttf and .otf
extensions, with no priority of .woff over .ttf and .otf. -/
theorem C3_amended (t : FTree) (stem : String) :
    prevOf (walkTree ⟨[], none⟩ t).fonts stem =
      match ((treeFiles t).filter (matchKey stem ".woff2")).getLast? with
      | some q => some (mkRef q)
      | none => (((treeFiles t).filter (previewMatch stem)).head?).map mkRef := by
  rw [walkTree_eq]
  exact scanAll_prevOf (treeFiles t) stem

/-- C6: a permission error on a directory leaves the scan state unchanged
(the subtree is skipped and scanning continues); the error the walk
records is exactly the first non-permission error in visit order; findFonts
surfaces that first error as the discovery failure; and once an error is
recorded, later error callbacks leave it untouched. When no such error
occurred and fonts were found, the scan succeeds. -/
theorem C6_theorem :
    (∀ (st : ScanState) (p msg : String) (cs : List FTree),
      walkTree st (.dir p (some (true, msg)) cs) = st) ∧
    (∀ t : FTree, (walkTree ⟨[], none⟩ t).walkErr = firstWalkErr t) ∧
    (∀ (rt : String) (t : FTree) (e : FontProcessError),
      firstWalkErr t = some e → findFonts rt t = .error e) ∧
    (∀ (st : ScanState) (e : FontProcessError) (p : String) (isPerm : Bool)
      (msg : String), st.walkErr = some e →
      (scanErrStep st p isPerm msg).walkErr = some e) ∧
    (∀ (rt : String) (t : FTree), firstWalkErr t = none →
      (walkTree ⟨[], none⟩ t).fonts.length ≠ 0 →
      findFonts rt t = .ok (walkTree ⟨[], none⟩ t).fonts) := by
  refine ⟨?_, ?_, ?_, ?_, ?_⟩
  · intro st p msg cs
    rfl
  · intro t
    rw [walkTree_eq]
  · intro rt t e he
    unfold findFonts
    rw [walkTree_eq]
    simp only [he]
  · intro st e p isPerm msg he
    unfold scanErrStep
    cases isPerm with
    | true => simpa using he
    | false =>
      rw [he]
      simpa using he
  · intro rt t he hne
    unfold findFonts
    rw [walkTree_eq] at hne ⊢
    simp only [he] at hne ⊢
    rw [if_neg (by simpa using hne)]

/-- C6 witness: a tree whose first directory is permission-denied and whose
later directories fail with two distinct non-permission errors; the scan
returns the first non-permission error. -/
theorem C6_witness :
    findFonts "/r" (.dir "/r" none
      [.dir "/r/locked" (some (true, "permission denied")) [.file "/r/locked/X.ttf"],
       .dir "/r/bad" (some (false, "disk error")) [],
       .dir "/r/bad2" (some (false, "later error")) []]) =
      .error ⟨"access", "/r/bad", "disk error"⟩ :=
  C6_theorem.2.2.1 "/r" _ _ (by rfl)

/-- C9: every variant a successful scan returns carries a preview
reference (the first accepted file of a variant always sets it), and the
worker pool's set-preview-when-empty branch never changes the preview of
such a variant: processing any job, successful or not, leaves a non-empty
preview reference exactly as it was. -/
theorem C9_theorem :
    (∀ (rt : String) (t : FTree) (fonts : List (String × FontVariant)),
      findFonts rt t = .ok fonts →
      ∀ k v, amGet fonts k = some v → v.PreviewPath ≠ none) ∧
    (∀ (conv : ConversionJob → Except FontProcessError String)
      (job : ConversionJob) (v : FontVariant), v.PreviewPath ≠ none →
      (processJobVariant conv job v).PreviewPath = v.PreviewPath) := by
  constructor
  · intro rt t fonts hscan k v hv
    exact ((findFonts_inv rt t fonts hscan).1 k v hv).2
  · intro conv job v h
    exact processJobVariant_preview_preserved conv job v h

/-- C9 witness: the scanned Arial variant has a preview reference, and a
successful .woff2 conversion job leaves it unchanged. -/
theorem C9_witness :
    (⟨"Arial", [(".ttf", mkRef "/r/Arial.ttf")], some (mkRef "/r/Arial.ttf")⟩ :
      FontVariant).PreviewPath ≠ none ∧
    (processJobVariant (fun _ => .ok "/s/converted/Arial.woff2")
      ⟨"Arial", "/r/Arial.ttf", ".ttf", woff2OutPath "/s" "Arial"⟩
      ⟨"Arial", [(".ttf", mkRef "/r/Arial.ttf")], some (mkRef "/r/Arial.ttf")⟩).PreviewPath =
      (⟨"Arial", [(".ttf", mkRef "/r/Arial.ttf")], some (mkRef "/r/Arial.ttf")⟩ :
        FontVariant).PreviewPath := by
  constructor
  · exact C9_theorem.1 "/r" (.dir "/r" none [.file "/r/Arial.ttf"]) _ rfl "Arial" _ rfl
  · exact C9_theorem.2 _ _ _ (by simp)

/-- C7: in an uncancelled batch run, every step (a job finishing, on
converter success and failure alike) increments the shared completed-count
by exactly one, so the count is non-decreasing; at every reachable state
the count plus the jobs still queued equals the batch total, and when the
pool returns (no job pending) the count equals the total — independently
of which progress events were dropped, since the run relation includes
both the delivered and the dropped outcome of every send. -/
theorem C7_theorem (conv : ConversionJob → Except FontProcessError String)
    (fonts : List (String × FontVariant)) (jobs : List ConversionJob)
    (st : BatchState)
    (h : BatchRun conv jobs.length (initBatch fonts jobs) st) :
    (∀ s s', BatchStep conv jobs.length s s' → s'.completed = s.completed + 1) ∧
    st.completed + st.pending.length = jobs.length ∧
    (st.pending = [] → st.completed = jobs.length) := by
  refine ⟨fun s s' hs => batchStep_completed hs, ?_, ?_⟩
  · have := batchRun_count h
    simpa [initBatch] using this
  · intro hp
    have := batchRun_count h
    rw [hp] at this
    simpa [initBatch] using this

/-- C7 witness: a one-job batch processed by a single (event-dropping)
step reaches the terminal state with completed-count one. -/
theorem C7_witness :
    ({ fonts := applyJob (fun _ => .error ⟨"woff2_compress", "/tmp/A.ttf", "boom"⟩)
          [("A", ⟨"A", [(".ttf", mkRef "/r/A.ttf")], some (mkRef "/r/A.ttf")⟩)]
          ⟨"A", "/r/A.ttf", ".ttf", woff2OutPath "/s" "A"⟩
       pending := ([⟨"A", "/r/A.ttf", ".ttf", woff2OutPath "/s" "A"⟩] :
          List ConversionJob).erase ⟨"A", "/r/A.ttf", ".ttf", woff2OutPath "/s" "A"⟩
       completed := 0 + 1
       delivered := if true then [] else
         [progressEvent 1 (0 + 1) ⟨"A", "/r/A.ttf", ".ttf", woff2OutPath "/s" "A"⟩]
      } : BatchState).completed = 1 ∧
    ({ fonts := applyJob (fun _ => .error ⟨"woff2_compress", "/tmp/A.ttf", "boom"⟩)
          [("A", ⟨"A", [(".ttf", mkRef "/r/A.ttf")], some (mkRef "/r/A.ttf")⟩)]
          ⟨"A", "/r/A.ttf", ".ttf", woff2OutPath "/s" "A"⟩
       pending := ([⟨"A", "/r/A.ttf", ".ttf", woff2OutPath "/s" "A"⟩] :
          List ConversionJob).erase ⟨"A", "/r/A.ttf", ".ttf", woff2OutPath "/s" "A"⟩
       completed := 0 + 1
       delivered := if true then [] else
         [progressEvent 1 (0 + 1) ⟨"A", "/r/A.ttf", ".ttf", woff2OutPath "/s" "A"⟩]
      } : BatchState).completed +
      ({ fonts := applyJob (fun _ => .error ⟨"woff2_compress", "/tmp/A.ttf", "boom"⟩)
          [("A", ⟨"A", [(".ttf", mkRef "/r/A.ttf")], some (mkRef "/r/A.ttf")⟩)]
          ⟨"A", "/r/A.ttf", ".ttf", woff2OutPath "/s" "A"⟩
         pending := ([⟨"A", "/r/A.ttf", ".ttf", woff2OutPath "/s" "A"⟩] :
            List ConversionJob).erase ⟨"A", "/r/A.ttf", ".ttf", woff2OutPath "/s" "A"⟩
         completed := 0 + 1
         delivered := if true then [] else
           [progressEvent 1 (0 + 1) ⟨"A", "/r/A.ttf", ".ttf", woff2OutPath "/s" "A"⟩]
        } : BatchState).pending.length =
      ([⟨"A", "/r/A.ttf", ".ttf", woff2OutPath "/s" "A"⟩] : List ConversionJob).length := by
  have h := C7_theorem (fun _ => .error ⟨"woff2_compress", "/tmp/A.ttf", "boom"⟩)
    [("A", ⟨"A", [(".ttf", mkRef "/r/A.ttf")], some (mkRef "/r/A.ttf")⟩)]
    [⟨"A", "/r/A.ttf", ".ttf", woff2OutPath "/s" "A"⟩] _
    (Relation.ReflTransGen.single
      (BatchStep.finish _ ⟨"A", "/r/A.ttf", ".ttf", woff2OutPath "/s" "A"⟩ true
        (List.mem_cons_self _ _)))
  exact ⟨by rfl, h.2.1⟩

/-- C8: when the converter fails on the one job targeting a variant, the
job leaves the variant entirely unchanged; the rest of the batch can still
run to completion; and in every terminal state the variant is still stored
unchanged and still appears in the assembled result list with exactly its
pre-existing formats and preview. -/
theorem C8_theorem (conv : ConversionJob → Except FontProcessError String)
    (fonts : List (String × FontVariant)) (jobs : List ConversionJob)
    (name : String) (v : FontVariant) (job : ConversionJob)
    (e : FontProcessError)
    (hv : amGet fonts name = some v)
    (hone : jobs.filter (fun j => j.variantName == name) = [job])
    (herr : conv job = .error e) :
    processJobVariant conv job v = v ∧
    (∃ st, BatchRun conv jobs.length (initBatch fonts jobs) st ∧ st.pending = []) ∧
    (∀ st, BatchRun conv jobs.length (initBatch fonts jobs) st → st.pending = [] →
      amGet st.fonts name = some v ∧
      (⟨v.Name, v.PreviewPath, v.Location⟩ : FontPreview) ∈ assembleResults st.fonts) := by
  refine ⟨processJobVariant_error conv job v e herr, ?_, ?_⟩
  · exact batchRun_exists_terminal conv jobs.length (initBatch fonts jobs)
  · intro st hrun hterm
    have hst : amGet st.fonts name = some v := by
      have := batchRun_single_target name job hrun hterm hone
      rw [this]
      show (amGet fonts name).map _ = _
      rw [hv]
      simp [processJobVariant_error conv job v e herr]
    refine ⟨hst, ?_⟩
    exact assembleResults_mem st.fonts name v (mem_of_amGet_eq_some _ _ _ hst)

/-- C8 witness: the single job for variant A fails; A keeps its .woff
entry untouched. -/
theorem C8_witness :
    processJobVariant (fun _ => .error ⟨"woff2_decompress", "/tmp/A.woff2", "boom"⟩)
      ⟨"A", "/r/A.woff2", ".woff2", ttfOutPath "/s" "A"⟩
      ⟨"A", [(".woff2", mkRef "/r/A.woff2")], some (mkRef "/r/A.woff2")⟩ =
      ⟨"A", [(".woff2", mkRef "/r/A.woff2")], some (mkRef "/r/A.woff2")⟩ :=
  (C8_theorem (fun _ => .error ⟨"woff2_decompress", "/tmp/A.woff2", "boom"⟩)
    [("A", ⟨"A", [(".woff2", mkRef "/r/A.woff2")], some (mkRef "/r/A.woff2")⟩)]
    [⟨"A", "/r/A.woff2", ".woff2", ttfOutPath "/s" "A"⟩]
    "A" ⟨"A", [(".woff2", mkRef "/r/A.woff2")], some (mkRef "/r/A.woff2")⟩
    ⟨"A", "/r/A.woff2", ".woff2", ttfOutPath "/s" "A"⟩
    ⟨"woff2_decompress", "/tmp/A.woff2", "boom"⟩
    rfl (by rfl) rfl).1

theorem planVariant_fst_shape (sd : String) (v : FontVariant) (j : ConversionJob)
    (h : j ∈ (planVariant sd v).1) :
    pathExt j.outputPath = ".woff2" ∧
    (j.sourceFormat = ".ttf" ∨ j.sourceFormat = ".otf") := by
  rw [planVariant_fst_eq] at h
  cases h2 : amGet v.Location ".woff2" <;> rw [h2] at h
  case some => cases h
  case none =>
    cases ht : amGet v.Location ".ttf" <;> rw [ht] at h
    case some =>
      rw [List.mem_singleton] at h
      subst h
      exact ⟨pathExt_woff2OutPath sd v.Name, Or.inl rfl⟩
    case none =>
      cases ho : amGet v.Location ".otf" <;> rw [ho] at h
      case some =>
        rw [List.mem_singleton] at h
        subst h
        exact ⟨pathExt_woff2OutPath sd v.Name, Or.inr rfl⟩
      case none => cases h

theorem planVariant_snd_shape (sd : String) (v : FontVariant) (j : ConversionJob)
    (h : j ∈ (planVariant sd v).2) :
    pathExt j.outputPath = ".ttf" ∧ j.sourceFormat = ".woff2" := by
  rw [planVariant_snd_eq] at h
  cases h2 : amGet v.Location ".woff2" <;> rw [h2] at h
  case some =>
    cases ht : amGet v.Location ".ttf" <;> rw [ht] at h
    case some => cases h
    case none =>
      rw [List.mem_singleton] at h
      subst h
      exact ⟨pathExt_ttfOutPath sd v.Name, rfl⟩
  case none => cases h

/-- C4: for every variant of the scan output, the planner emits exactly
one compress job when the variant lacks .woff2 — sourced from the .ttf
reference when present (the tie-break), else from the .otf reference —
and none when .woff2 is present; exactly one decompress job producing a
.ttf when .woff2 is present but .ttf is not, and none otherwise; and every
planned job points in one of these two directions only. -/
theorem C4_theorem (rt : String) (t : FTree)
    (fonts : List (String × FontVariant)) (sd name : String) (v : FontVariant)
    (hscan : findFonts rt t = .ok fonts) (hv : amGet fonts name = some v) :
    (∀ r : Ref, amGet v.Location ".woff2" = none → amGet v.Location ".ttf" = some r →
      (planJobs sd fonts).1.filter (fun j => j.variantName == v.Name) =
        [⟨v.Name, r.path, ".ttf", woff2OutPath sd v.Name⟩]) ∧
    (∀ r : Ref, amGet v.Location ".woff2" = none → amGet v.Location ".ttf" = none →
      amGet v.Location ".otf" = some r →
      (planJobs sd fonts).1.filter (fun j => j.variantName == v.Name) =
        [⟨v.Name, r.path, ".otf", woff2OutPath sd v.Name⟩]) ∧
    (∀ w : Ref, amGet v.Location ".woff2" = some w →
      (planJobs sd fonts).1.filter (fun j => j.variantName == v.Name) = []) ∧
    (∀ w : Ref, amGet v.Location ".woff2" = some w → amGet v.Location ".ttf" = none →
      (planJobs sd fonts).2.filter (fun j => j.variantName == v.Name) =
        [⟨v.Name, w.path, ".woff2", ttfOutPath sd v.Name⟩]) ∧
    (amGet v.Location ".woff2" = none →
      (planJobs sd fonts).2.filter (fun j => j.variantName == v.Name) = []) ∧
    (∀ r : Ref, amGet v.Location ".ttf" = some r →
      (planJobs sd fonts).2.filter (fun j => j.variantName == v.Name) = []) ∧
    (∀ j ∈ (planJobs sd fonts).1, pathExt j.outputPath = ".woff2" ∧
      (j.sourceFormat = ".ttf" ∨ j.sourceFormat = ".otf")) ∧
    (∀ j ∈ (planJobs sd fonts).2, pathExt j.outputPath = ".ttf" ∧
      j.sourceFormat = ".woff2") := by
  obtain ⟨hget, hnd⟩ := findFonts_inv rt t fonts hscan
  have hnames : ∀ kv ∈ fonts, (kv : String × FontVariant).2.Name = kv.1 := by
    intro kv hkv
    exact (hget kv.1 kv.2 (amGet_of_mem_nodup fonts kv.1 kv.2 hnd hkv)).1
  have hf1 := planJobs_filter_fst sd fonts name v hnames hnd hv
  have hf2 := planJobs_filter_snd sd fonts name v hnames hnd hv
  refine ⟨?_, ?_, ?_, ?_, ?_, ?_, ?_, ?_⟩
  · intro r hw ht
    rw [hf1, planVariant_fst_eq, hw, ht]
  · intro r hw ht ho
    rw [hf1, planVariant_fst_eq, hw, ht, ho]
  · intro w hw
    rw [hf1, planVariant_fst_eq, hw]
  · intro w hw ht
    rw [hf2, planVariant_snd_eq, hw, ht]
  · intro hw
    rw [hf2, planVariant_snd_eq, hw]
  · intro r ht
    rw [hf2, planVariant_snd_eq, ht]
    cases hw : amGet v.Location ".woff2" <;> rfl
  · intro j hj
    obtain ⟨kv, hkv, hj'⟩ := mem_planJobs_fst sd fonts j hj
    exact planVariant_fst_shape sd kv.2 j hj'
  · intro j hj
    obtain ⟨kv, hkv, hj'⟩ := mem_planJobs_snd sd fonts j hj
    exact planVariant_snd_shape sd kv.2 j hj'

/-- C4 witness: the Arial variant with both .ttf and .otf and no .woff2
gets exactly one compress job sourced from the .ttf file and no decompress
job. -/
theorem C4_witness :
    (planJobs "/s" [("Arial", ⟨"Arial",
        [(".ttf", mkRef "/r/Arial.ttf"), (".otf", mkRef "/r/Arial.otf")],
        some (mkRef "/r/Arial.ttf")⟩)]).1.filter
        (fun j => j.variantName == "Arial") =
      [⟨"Arial", "/r/Arial.ttf", ".ttf", woff2OutPath "/s" "Arial"⟩] ∧
    (planJobs "/s" [("Arial", ⟨"Arial",
        [(".ttf", mkRef "/r/Arial.ttf"), (".otf", mkRef "/r/Arial.otf")],
        some (mkRef "/r/Arial.ttf")⟩)]).2.filter
        (fun j => j.variantName == "Arial") = [] := by
  have h := C4_theorem "/r" (.dir "/r" none [.file "/r/Arial.ttf", .file "/r/Arial.otf"])
    [("Arial", ⟨"Arial",
      [(".ttf", mkRef "/r/Arial.ttf"), (".otf", mkRef "/r/Arial.otf")],
      some (mkRef "/r/Arial.ttf")⟩)]
    "/s" "Arial"
    ⟨"Arial", [(".ttf", mkRef "/r/Arial.ttf"), (".otf", mkRef "/r/Arial.otf")],
      some (mkRef "/r/Arial.ttf")⟩
    rfl rfl
  exact ⟨h.1 (mkRef "/r/Arial.ttf") rfl rfl,
    h.2.2.2.2.2.1 (mkRef "/r/Arial.ttf") rfl⟩

/-- C10: a variant whose only discovered format is .woff gets no job in
either planned batch; any pair of batch runs (whatever the converters do)
leaves its stored entry untouched, and it appears in the final results
with exactly its single .woff entry. -/
theorem C10_theorem (rt : String) (t : FTree)
    (fonts : List (String × FontVariant)) (sd name : String)
    (v : FontVariant) (r : Ref)
    (hscan : findFonts rt t = .ok fonts)
    (hv : amGet fonts name = some v)
    (hloc : v.Location = [(".woff", r)]) :
    (planVariant sd v).1 = [] ∧ (planVariant sd v).2 = [] ∧
    (∀ (conv1 conv2 : ConversionJob → Except FontProcessError String)
      (st1 st2 : BatchState),
      BatchRun conv1 (planJobs sd fonts).1.length
        (initBatch fonts (planJobs sd fonts).1) st1 →
      BatchRun conv2 (planJobs sd fonts).2.length
        (initBatch st1.fonts (planJobs sd fonts).2) st2 →
      amGet st2.fonts name = some v ∧
      (⟨v.Name, v.PreviewPath, [(".woff", r)]⟩ : FontPreview) ∈
        assembleResults st2.fonts) := by
  obtain ⟨hget, hnd⟩ := findFonts_inv rt t fonts hscan
  have hw2 : amGet v.Location ".woff2" = none := by rw [hloc]; rfl
  have htt : amGet v.Location ".ttf" = none := by rw [hloc]; rfl
  have hot : amGet v.Location ".otf" = none := by rw [hloc]; rfl
  have hp1 : (planVariant sd v).1 = [] := by
    rw [planVariant_fst_eq, hw2, htt, hot]
  have hp2 : (planVariant sd v).2 = [] := by
    rw [planVariant_snd_eq, hw2]
  have hvn : v.Name = name :=
    (hget name v hv).1
  have huniq : ∀ kv ∈ fonts, (kv : String × FontVariant).1 = name → kv.2 = v := by
    intro kv hkv hk
    have := amGet_of_mem_nodup fonts kv.1 kv.2 hnd hkv
    rw [hk, hv] at this
    injection this with this
    exact this.symm
  have hno1 : ∀ j ∈ (planJobs sd fonts).1, j.variantName ≠ name := by
    intro j hj he
    obtain ⟨kv, hkv, hj'⟩ := mem_planJobs_fst sd fonts j hj
    have hn := planVariant_fst_name sd kv.2 j hj'
    have hkey : kv.2.Name = kv.1 :=
      (hget kv.1 kv.2 (amGet_of_mem_nodup fonts kv.1 kv.2 hnd hkv)).1
    have : kv.2 = v := huniq kv hkv (by rw [← hkey, ← hn, he])
    rw [this, hp1] at hj'
    cases hj'
  have hno2 : ∀ j ∈ (planJobs sd fonts).2, j.variantName ≠ name := by
    intro j hj he
    obtain ⟨kv, hkv, hj'⟩ := mem_planJobs_snd sd fonts j hj
    have hn := planVariant_snd_name sd kv.2 j hj'
    have hkey : kv.2.Name = kv.1 :=
      (hget kv.1 kv.2 (amGet_of_mem_nodup fonts kv.1 kv.2 hnd hkv)).1
    have : kv.2 = v := huniq kv hkv (by rw [← hkey, ← hn, he])
    rw [this, hp2] at hj'
    cases hj'
  refine ⟨hp1, hp2, ?_⟩
  intro conv1 conv2 st1 st2 hrun1 hrun2
  have h1 : amGet st1.fonts name = some v := by
    rw [batchRun_untargeted name hrun1 hno1]
    exact hv
  have h2 : amGet st2.fonts name = some v := by
    rw [batchRun_untargeted name hrun2 hno2]
    exact h1
  refine ⟨h2, ?_⟩
  have := assembleResults_mem st2.fonts name v (mem_of_amGet_eq_some _ _ _ h2)
  rw [hloc] at this
  exact this

/-- C10 witness: a .woff-only variant, empty planned batches, empty runs:
the variant survives into the results with only its .woff entry. -/
theorem C10_witness :
    (planVariant "/s" ⟨"Solo", [(".woff", mkRef "/r/Solo.woff")],
      some (mkRef "/r/Solo.woff")⟩).1 = [] ∧
    (planVariant "/s" ⟨"Solo", [(".woff", mkRef "/r/Solo.woff")],
      some (mkRef "/r/Solo.woff")⟩).2 = [] := by
  have h := C10_theorem "/r" (.dir "/r" none [.file "/r/Solo.woff"])
    [("Solo", ⟨"Solo", [(".woff", mkRef "/r/Solo.woff")],
      some (mkRef "/r/Solo.woff")⟩)]
    "/s" "Solo"
    ⟨"Solo", [(".woff", mkRef "/r/Solo.woff")], some (mkRef "/r/Solo.woff")⟩
    (mkRef "/r/Solo.woff") rfl rfl rfl
  exact ⟨h.1, h.2.1⟩

theorem applyConversion_eval (job : ConversionJob) (p : String) (v : FontVariant)
    (hext : pathExt job.outputPath = ".woff2") (hprev : v.PreviewPath ≠ none) :
    (applyConversion job p v).Location =
      amSet v.Location ".woff2" ⟨p, some (v.Name ++ ".woff2")⟩ ∧
    (applyConversion job p v).PreviewPath = v.PreviewPath := by
  simp only [applyConversion, hext]
  split
  · rename_i hcond
    exact absurd hcond.2 hprev
  · exact ⟨rfl, rfl⟩

/-- C1 counterexample: a variant discovered with only Arial.ttf; the
planner emits one compress job; one successful uncancelled run of the
batch finishes with the formats mapping extended by .woff2 but the preview
reference still the original .ttf reference, not the newly produced
.woff2 reference as the claim requires. -/
theorem C1_counterexample :
    findFonts "/r" (.dir "/r" none [.file "/r/Arial.ttf"]) =
      .ok [("Arial", ⟨"Arial", [(".ttf", mkRef "/r/Arial.ttf")],
        some (mkRef "/r/Arial.ttf")⟩)] ∧
    planJobs "/s" [("Arial", ⟨"Arial", [(".ttf", mkRef "/r/Arial.ttf")],
        some (mkRef "/r/Arial.ttf")⟩)] =
      ([⟨"Arial", "/r/Arial.ttf", ".ttf", "/s/converted/Arial.woff2"⟩], []) ∧
    BatchRun (fun _ => .ok "/s/converted/Arial.woff2") 1
      (initBatch [("Arial", ⟨"Arial", [(".ttf", mkRef "/r/Arial.ttf")],
        some (mkRef "/r/Arial.ttf")⟩)]
        [⟨"Arial", "/r/Arial.ttf", ".ttf", "/s/converted/Arial.woff2"⟩])
      ⟨[("Arial", ⟨"Arial",
          [(".ttf", mkRef "/r/Arial.ttf"),
           (".woff2", ⟨"/s/converted/Arial.woff2", some "Arial.woff2"⟩)],
          some (mkRef "/r/Arial.ttf")⟩)], [], 1, []⟩ ∧
    amGet [("Arial", (⟨"Arial",
        [(".ttf", mkRef "/r/Arial.ttf"),
         (".woff2", ⟨"/s/converted/Arial.woff2", some "Arial.woff2"⟩)],
        some (mkRef "/r/Arial.ttf")⟩ : FontVariant))] "Arial" =
      some ⟨"Arial",
        [(".ttf", mkRef "/r/Arial.ttf"),
         (".woff2", ⟨"/s/converted/Arial.woff2", some "Arial.woff2"⟩)],
        some (mkRef "/r/Arial.ttf")⟩ ∧
    (some (mkRef "/r/Arial.ttf") : Option Ref) ≠
      some ⟨"/s/converted/Arial.woff2", some "Arial.woff2"⟩ := by
  refine ⟨rfl, rfl, ?_, rfl, by decide⟩
  exact Relation.ReflTransGen.single
    (BatchStep.finish _ ⟨"Arial", "/r/Arial.ttf", ".ttf", "/s/converted/Arial.woff2"⟩
      true (List.mem_cons_self _ _))

/-- C1 amended: for a scanned variant with a .ttf reference and no .woff2,
after any terminal uncancelled run of the web-compressed batch in which
its planned job converts successfully, the variant's formats mapping gains
the .woff2 entry for the produced output, while its preview reference is
left unchanged: the pool only sets the preview when it is empty, which
never holds for a scanned variant. -/
theorem C1_amended (rt : String) (t : FTree)
    (fonts : List (String × FontVariant)) (sd name : String)
    (v : FontVariant) (r : Ref)
    (conv : ConversionJob → Except FontProcessError String) (p : String)
    (st : BatchState)
    (hscan : findFonts rt t = .ok fonts)
    (hv : amGet fonts name = some v)
    (hw : amGet v.Location ".woff2" = none)
    (ht : amGet v.Location ".ttf" = some r)
    (hconv : conv ⟨v.Name, r.path, ".ttf", woff2OutPath sd v.Name⟩ = .ok p)
    (hrun : BatchRun conv (planJobs sd fonts).1.length
      (initBatch fonts (planJobs sd fonts).1) st)
    (hterm : st.pending = []) :
    ∃ v', amGet st.fonts name = some v' ∧
      amGet v'.Location ".woff2" = some ⟨p, some (v.Name ++ ".woff2")⟩ ∧
      v'.PreviewPath = v.PreviewPath ∧ v'.PreviewPath ≠ none := by
  obtain ⟨hget, hnd⟩ := findFonts_inv rt t fonts hscan
  have hnames : ∀ kv ∈ fonts, (kv : String × FontVariant).2.Name = kv.1 := by
    intro kv hkv
    exact (hget kv.1 kv.2 (amGet_of_mem_nodup fonts kv.1 kv.2 hnd hkv)).1
  have hvn : v.Name = name := (hget name v hv).1
  have hprev : v.PreviewPath ≠ none := (hget name v hv).2
  have hone : (planJobs sd fonts).1.filter (fun j => j.variantName == name) =
      [⟨v.Name, r.path, ".ttf", woff2OutPath sd v.Name⟩] := by
    rw [← hvn]
    rw [planJobs_filter_fst sd fonts name v hnames hnd hv]
    rw [planVariant_fst_eq, hw, ht]
  have hst := batchRun_single_target name
    ⟨v.Name, r.path, ".ttf", woff2OutPath sd v.Name⟩ hrun hterm hone
  have hja : processJobVariant conv
      ⟨v.Name, r.path, ".ttf", woff2OutPath sd v.Name⟩ v =
      applyConversion ⟨v.Name, r.path, ".ttf", woff2OutPath sd v.Name⟩ p v := by
    unfold processJobVariant
    rw [hconv]
  have heval := applyConversion_eval
    ⟨v.Name, r.path, ".ttf", woff2OutPath sd v.Name⟩ p v
    (pathExt_woff2OutPath sd v.Name) hprev
  refine ⟨applyConversion ⟨v.Name, r.path, ".ttf", woff2OutPath sd v.Name⟩ p v,
    ?_, ?_, ?_, ?_⟩
  · rw [hst]
    show (amGet fonts name).map _ = _
    rw [hv]
    show some (processJobVariant conv
      ⟨v.Name, r.path, ".ttf", woff2OutPath sd v.Name⟩ v) = _
    rw [hja]
  · rw [heval.1, amGet_amSet_self]
  · exact heval.2
  · rw [heval.2]
    exact hprev

/-- C1 amended, witness: the concrete Arial run of the counterexample
instantiates the amended claim. -/
theorem C1_amended_witness :
    ∃ v', amGet (⟨[("Arial", ⟨"Arial",
        [(".ttf", mkRef "/r/Arial.ttf"),
         (".woff2", ⟨"/s/converted/Arial.woff2", some "Arial.woff2"⟩)],
        some (mkRef "/r/Arial.ttf")⟩)], [], 1, []⟩ : BatchState).fonts "Arial" =
        some v' ∧
      amGet v'.Location ".woff2" =
        some ⟨"/s/converted/Arial.woff2", some ("Arial" ++ ".woff2")⟩ ∧
      v'.PreviewPath = some (mkRef "/r/Arial.ttf") ∧
      v'.PreviewPath ≠ none :=
  C1_amended "/r" (.dir "/r" none [.file "/r/Arial.ttf"])
    [("Arial", ⟨"Arial", [(".ttf", mkRef "/r/Arial.ttf")],
      some (mkRef "/r/Arial.ttf")⟩)]
    "/s" "Arial"
    ⟨"Arial", [(".ttf", mkRef "/r/Arial.ttf")], some (mkRef "/r/Arial.ttf")⟩
    (mkRef "/r/Arial.ttf")
    (fun _ => .ok "/s/converted/Arial.woff2") "/s/converted/Arial.woff2"
    ⟨[("Arial", ⟨"Arial",
        [(".ttf", mkRef "/r/Arial.ttf"),
         (".woff2", ⟨"/s/converted/Arial.woff2", some "Arial.woff2"⟩)],
        some (mkRef "/r/Arial.ttf")⟩)], [], 1, []⟩
    rfl rfl rfl rfl rfl
    (Relation.ReflTransGen.single
      (BatchStep.finish _ ⟨"Arial", "/r/Arial.ttf", ".ttf", "/s/converted/Arial.woff2"⟩
        true (List.mem_cons_self _ _)))
    rfl

/-- C5: a convert call in either direction whose destination already
exists as a non-empty file returns immediately with no external-tool
invocation and no file-system change; a successful convert leaves the
destination non-empty, so an immediate second call performs no invocation;
and a whole batch whose outputs all exist non-empty (the state after a
fully successful run over unchanged directories) performs zero external
invocations. -/
theorem C5_theorem (tool : ToolOracle) (fs : FS) (src out : String) (n : Nat)
    (h : fsStat fs out = some n) (hn : 0 < n) :
    convertToWoff2 tool fs src out = (.ok out, fs, 0) ∧
    convertToTTF tool fs src out = (.ok (), fs, 0) ∧
    convertToTTFWrapped tool fs src out = (.ok out, fs, 0) ∧
    (∀ (fs1 : FS) (p : String) (fs2 : FS) (k : Nat),
      trimSuffix out ".woff2" ++ pathExt src ≠ out →
      convertToWoff2 tool fs1 src out = (.ok p, fs2, k) →
      convertToWoff2 tool fs2 src out = (.ok out, fs2, 0)) ∧
    (∀ (fs1 fs2 : FS) (k : Nat),
      pathJoin (pathDir out) (pathBase src) ≠ out →
      convertToTTF tool fs1 src out = (.ok (), fs2, k) →
      convertToTTF tool fs2 src out = (.ok (), fs2, 0)) ∧
    (∀ jobs : List ConversionJob,
      (∀ j ∈ jobs, ∃ m, fsStat fs j.outputPath = some m ∧ 0 < m) →
      runBatchFS (convertToWoff2 tool) fs jobs = (fs, 0) ∧
      runBatchFS (convertToTTFWrapped tool) fs jobs = (fs, 0)) := by
  refine ⟨convertToWoff2_skip tool fs src out n h hn,
    convertToTTF_skip tool fs src out n h hn,
    convertToTTFWrapped_skip tool fs src out n h hn, ?_, ?_, ?_⟩
  · intro fs1 p fs2 k hne hcall
    obtain ⟨m, hm, hmp⟩ := convertToWoff2_ok_nonempty tool fs1 src out p fs2 k hne hcall
    exact convertToWoff2_skip tool fs2 src out m hm hmp
  · intro fs1 fs2 k hne hcall
    obtain ⟨m, hm, hmp⟩ := convertToTTF_ok_nonempty tool fs1 src out fs2 k hne hcall
    exact convertToTTF_skip tool fs2 src out m hm hmp
  · intro jobs hjobs
    refine ⟨?_, ?_⟩
    · exact runBatchFS_all_skip (convertToWoff2 tool)
        (fun fsx srcx outx nx hx hnx => convertToWoff2_skip tool fsx srcx outx nx hx hnx)
        fs jobs hjobs
    · exact runBatchFS_all_skip (convertToTTFWrapped tool)
        (fun fsx srcx outx nx hx hnx => convertToTTFWrapped_skip tool fsx srcx outx nx hx hnx)
        fs jobs hjobs

/-- C5 witness: with the output already present and non-empty, one call
and a one-job batch both answer without invoking the tool or touching the
file system. -/
theorem C5_witness :
    convertToWoff2 ⟨fun _ _ _ => (true, some 1)⟩ [("/o.woff2", 5)]
      "/src/A.ttf" "/o.woff2" = (.ok "/o.woff2", [("/o.woff2", 5)], 0) ∧
    runBatchFS (convertToWoff2 ⟨fun _ _ _ => (true, some 1)⟩) [("/o.woff2", 5)]
      [⟨"A", "/src/A.ttf", ".ttf", "/o.woff2"⟩] = ([("/o.woff2", 5)], 0) := by
  have h := C5_theorem ⟨fun _ _ _ => (true, some 1)⟩ [("/o.woff2", 5)]
    "/src/A.ttf" "/o.woff2" 5 rfl (by decide)
  refine ⟨h.1, ?_⟩
  refine (h.2.2.2.2.2 [⟨"A", "/src/A.ttf", ".ttf", "/o.woff2"⟩] ?_).1
  intro j hj
  rw [List.mem_singleton] at hj
  subst hj
  exact ⟨5, rfl, by decide⟩

end GoFindMyFonts
